import Mathlib

set_option autoImplicit false

/-
Verification of the lingo.dev merge-conflict resolver
(`packages/cli/src/cli/utils/conflict-parser.ts` and
`packages/cli/src/cli/utils/merge-resolver.ts`).

The repository files concatenate several closely related variants of the two
modules.  We refer to them as follows:
* parser variant P1: `conflict-parser.ts` lines 1-129 (split on `/\r?\n/`,
  anchored-regex `hasConflictMarkers` with marker counting);
* parser variant P2: `conflict-parser.ts` lines 130-243 (split on `"\n"`,
  substring `hasConflictMarkers`); the parsing logic is identical to P1;
* resolver variant A: `merge-resolver.ts` lines 1-360 (`parseJSONFragment`,
  `deepMerge` with per-key resolver callbacks);
* resolver variant B: `merge-resolver.ts` lines 361-773 (`smartResolveMeta`
  wrapping fragments in braces, explicit scope/entry merge loops);
* resolver variant C: `merge-resolver.ts` lines 774-1097 (`mergeMeta` /
  `mergeDictionary` over whole parsed documents).

Strings: JavaScript strings are UTF-16 code-unit sequences; we model them as
Lean `String`s (sequences of Unicode scalar values) and measure `.length` in
scalars.  The two coincide on all inputs without astral-plane characters,
which covers every input considered below.
-/

namespace LingoMerge

/-- Characters that JavaScript's regex `.` (dot) does not match: the four
line terminators. -/
def isLineTerm (c : Char) : Bool :=
  c = '\n' || c = '\r' || c = Char.ofNat 0x2028 || c = Char.ofNat 0x2029

/-- `content.split(/\r?\n/)` from parser variant P1, on the character list:
a `\r\n` pair or a lone `\n` separates lines; a lone `\r` stays in its line. -/
def splitRN : List Char → List (List Char)
  | [] => [[]]
  | '\r' :: '\n' :: rest => [] :: splitRN rest
  | '\n' :: rest => [] :: splitRN rest
  | c :: rest =>
    match splitRN rest with
    | [] => [[c]]
    | l :: ls => (c :: l) :: ls

/-- `content.split(/\r?\n/)` on a `String`. -/
def splitLines (content : String) : List String :=
  (splitRN content.data).map String.mk

/-- `lines.join("\n")`. -/
def joinN (lines : List String) : String :=
  String.intercalate "\n" lines

/-- `CONFLICT_START = /^<{7} (.+)$/` tested against one line: seven `<`,
a space, and at least one non-line-terminator character. -/
def isStartLine (s : String) : Bool :=
  s.data.take 8 = "<<<<<<< ".data &&
    !(s.data.drop 8).isEmpty && (s.data.drop 8).all (fun c => !isLineTerm c)

/-- `CONFLICT_MIDDLE = /^={7}$/` tested against one line: exactly seven `=`. -/
def isMiddleLine (s : String) : Bool :=
  s.data = "=======".data

/-- `CONFLICT_BASE = /^\|{7} (.+)$/` tested against one line. -/
def isBaseLine (s : String) : Bool :=
  s.data.take 8 = "||||||| ".data &&
    !(s.data.drop 8).isEmpty && (s.data.drop 8).all (fun c => !isLineTerm c)

/-- `CONFLICT_END = /^>{7} (.+)$/` tested against one line. -/
def isEndLine (s : String) : Bool :=
  s.data.take 8 = ">>>>>>> ".data &&
    !(s.data.drop 8).isEmpty && (s.data.drop 8).all (fun c => !isLineTerm c)

/-- One parsed conflict region (`ConflictSection` of `conflict-parser.ts`). -/
structure ConflictSection where
  ours : String
  theirs : String
  base : Option String
  startLine : Nat
  endLine : Nat
  deriving DecidableEq, Repr

/-- The marker-search loop of `parseConflictSection` (lines 72-81): walk the
lines after the start marker (passed as the list `rest`, whose head has
absolute index `i`), recording the first middle marker and the first base
marker, and stopping at the first end marker.  Returns
`(middleIndex?, baseIndex?, endIndex?)` with absolute indices
(`-1` in the source is modelled as `none`). -/
def scanSec : List String → Nat → Option Nat → Option Nat → Option Nat × Option Nat × Option Nat
  | [], _, mid, bas => (mid, bas, none)
  | l :: rest, i, mid, bas =>
    if isMiddleLine l && mid.isNone then
      scanSec rest (i + 1) (some i) bas
    else if isBaseLine l && bas.isNone then
      scanSec rest (i + 1) mid (some i)
    else if isEndLine l then
      (mid, bas, some i)
    else
      scanSec rest (i + 1) mid bas

/-- `lines.slice(a, b).join("\n")`. -/
def sliceJoin (lines : List String) (a b : Nat) : String :=
  joinN ((lines.drop a).take (b - a))

/-- `parseConflictSection(lines, startIndex)` (lines 62-105 of parser P1):
`none` models the `null` return for an invalid conflict section. -/
def parseConflictSection (lines : List String) (startIndex : Nat) : Option ConflictSection :=
  match scanSec (lines.drop (startIndex + 1)) (startIndex + 1) none none with
  | (some middleIndex, baseIndex, some endIndex) =>
    let oursEnd := baseIndex.getD middleIndex
    some { ours := sliceJoin lines (startIndex + 1) oursEnd
         , theirs := sliceJoin lines (middleIndex + 1) endIndex
         , base := baseIndex.map (fun b => sliceJoin lines (b + 1) middleIndex)
         , startLine := startIndex
         , endLine := endIndex }
  | _ => none

/-- The scanning loop of `parseConflicts` (lines 42-57).  The loop advances
`i` by at least one in every iteration, so `lines.length` iterations always
suffice; the first argument is that iteration budget. -/
def goParse (lines : List String) : Nat → Nat → List ConflictSection
  | 0, _ => []
  | fuel + 1, i =>
    if h : i < lines.length then
      if isStartLine (lines.get ⟨i, h⟩) then
        match parseConflictSection lines i with
        | some c => c :: goParse lines fuel (c.endLine + 1)
        | none => goParse lines fuel (i + 1)
      else goParse lines fuel (i + 1)
    else []

/-- `parseConflicts` on an already-split line list. -/
def parseConflictsLines (lines : List String) : List ConflictSection :=
  goParse lines lines.length 0

/-- `ConflictParser.parseConflicts(content)` (parser P1, lines 38-60). -/
def parseConflicts (content : String) : List ConflictSection :=
  parseConflictsLines (splitLines content)

/-- One iteration of the marker-counting loop of `hasConflictMarkers`
(parser P1, lines 23-33).  State: `(hasStart, hasMiddle, hasEnd, startCount,
endCount)`. -/
def hcmStep (st : Bool × Bool × Bool × Nat × Nat) (line : String) :
    Bool × Bool × Bool × Nat × Nat :=
  let (hasStart, hasMiddle, hasEnd, startCount, endCount) := st
  if isStartLine line then (true, hasMiddle, hasEnd, startCount + 1, endCount)
  else if isMiddleLine line then (hasStart, true, hasEnd, startCount, endCount)
  else if isEndLine line then (hasStart, hasMiddle, true, startCount, endCount + 1)
  else st

/-- `ConflictParser.hasConflictMarkers(content)` (parser P1, lines 15-36). -/
def hasConflictMarkers (content : String) : Bool :=
  let st := (splitLines content).foldl hcmStep (false, false, false, 0, 0)
  st.1 && st.2.1 && st.2.2.1 && decide (st.2.2.2.1 = st.2.2.2.2)

/-- The splice loop of `resolveConflicts` (parser P1, lines 115-125),
processing sections from the last to the first: the head of the list is
spliced last.  `lines.splice(start, end - start + 1, ...repl)` is
`take start ++ repl ++ drop (end + 1)`. -/
def applyRevList (resolver : ConflictSection → String) (lines : List String) :
    List ConflictSection → List String
  | [] => lines
  | c :: rest =>
    let ls := applyRevList resolver lines rest
    ls.take c.startLine ++ splitLines (resolver c) ++ ls.drop (c.endLine + 1)

/-- `ConflictParser.resolveConflicts(content, resolver)` (parser P1,
lines 107-128). -/
def resolveConflicts (content : String) (resolver : ConflictSection → String) : String :=
  joinN (applyRevList resolver (splitLines content) (parseConflicts content))

/-
JavaScript values.  The merge heuristics operate on values produced by
`JSON.parse` / object-literal evaluation; we model them with `JVal`.
Numbers are modelled as integers: no claim below involves numeric values,
and every concrete input we evaluate is number-free.  Exceptions
(`TypeError` from property access on `null` / property assignment on a
primitive in strict mode, non-iterable spread, out-of-fuel) are modelled
with `Except Unit`; in the source every such exception is caught by the
`try`/`catch` that encloses each smart merge.
-/
inductive JVal where
  | null : JVal
  | bool : Bool → JVal
  | num : Int → JVal
  | str : String → JVal
  | arr : List JVal → JVal
  | obj : List (String × JVal) → JVal
  deriving Repr

/-- JavaScript truthiness. -/
def truthy : JVal → Bool
  | .null => false
  | .bool b => b
  | .num n => n != 0
  | .str s => !s.isEmpty
  | .arr _ => true
  | .obj _ => true

/-- Truthiness of a possibly-`undefined` value (`none` is `undefined`). -/
def truthyOpt : Option JVal → Bool
  | none => false
  | some v => truthy v

/-- Is the value a string (`typeof x === "string"`)? -/
def isStr : JVal → Bool
  | .str _ => true
  | _ => false

def isStrOpt : Option JVal → Bool
  | some v => isStr v
  | none => false

/-- `typeof x === "object"`: true for objects, arrays and `null`. -/
def jsTypeofObj : JVal → Bool
  | .null => true
  | .arr _ => true
  | .obj _ => true
  | _ => false

/-- First binding of a key in a JS object (objects have unique keys; values
produced by `JSON.parse` always do, duplicates collapse to the last one
during parsing). -/
def lookupObj (pairs : List (String × JVal)) (k : String) : Option JVal :=
  match pairs with
  | [] => none
  | (k', v) :: rest => if k' = k then some v else lookupObj rest k

/-- JS property assignment on an object: update in place if the key exists,
append otherwise (JS objects preserve insertion order for string keys). -/
def setKey (pairs : List (String × JVal)) (k : String) (v : JVal) : List (String × JVal) :=
  match pairs with
  | [] => [(k, v)]
  | (k', v') :: rest => if k' = k then (k', v) :: rest else (k', v') :: setKey rest k v

/-- Object spread `{ ...x }`: enumerable own properties of `x`; `undefined`,
`null` and primitives without index properties spread to nothing, strings
and arrays spread to index-keyed properties. -/
def spreadObj : Option JVal → List (String × JVal)
  | some (.obj pairs) => pairs
  | some (.arr elems) => elems.enum.map (fun p => (toString p.1, p.2))
  | some (.str s) => s.data.enum.map (fun p => (toString p.1, JVal.str (String.mk [p.2])))
  | _ => []

/-- `{ ...a, ...b }`: start from `a`'s properties and assign all of `b`'s. -/
def objAssign (a b : List (String × JVal)) : List (String × JVal) :=
  b.foldl (fun acc p => setKey acc p.1 p.2) a

/-- JS property read `x.prop`: throws `TypeError` on `null`, yields
`undefined` (`none`) for absent properties and on property-less
primitives. -/
def jsGet : JVal → String → Except Unit (Option JVal)
  | .null, _ => .error ()
  | .obj pairs, k => .ok (lookupObj pairs k)
  | .str s, k =>
      .ok (if k = "length" then some (.num s.length)
           else match k.toNat? with
                | some i => (s.data.get? i).map (fun c => .str (String.mk [c]))
                | none => none)
  | .arr vs, k =>
      .ok (if k = "length" then some (.num vs.length)
           else match k.toNat? with
                | some i => vs.get? i
                | none => none)
  | .num _, _ => .ok none
  | .bool _, _ => .ok none

/-- JS property write `x.prop = v` in strict mode: works on objects, throws
`TypeError` on `null` and on primitives.  (Index writes on arrays are the
only array writes the source performs; writes at the current length append,
matching sequential `result[i] = v` use.) -/
def listSet (vs : List JVal) (i : Nat) (v : JVal) : List JVal :=
  if i < vs.length then vs.set i v else vs ++ [v]

def jsSetProp : JVal → String → JVal → Except Unit JVal
  | .obj pairs, k, v => .ok (.obj (setKey pairs k v))
  | .arr vs, k, v =>
      match k.toNat? with
      | some i => .ok (.arr (listSet vs i v))
      | none => .ok (.arr vs)
  | _, _, _ => .error ()

/-- `Object.entries(x)`: throws on `null`, lists key/value pairs of objects,
index/value pairs of arrays and strings, nothing for other primitives. -/
def jsEntries : JVal → Except Unit (List (String × JVal))
  | .null => .error ()
  | .obj pairs => .ok pairs
  | .arr elems => .ok (elems.enum.map (fun p => (toString p.1, p.2)))
  | .str s => .ok (s.data.enum.map (fun p => (toString p.1, JVal.str (String.mk [p.2]))))
  | .num _ => .ok []
  | .bool _ => .ok []

/-- JS strict inequality `a !== b` between two possibly-`undefined` values.
Primitives compare by value.  Objects and arrays compare by reference; at
every call site below the two operands come from separately parsed or
separately constructed object graphs, so distinct references, and the
comparison yields `true`. -/
def jsStrictNeq : Option JVal → Option JVal → Bool
  | none, none => false
  | some .null, some .null => false
  | some (.bool a), some (.bool b) => a != b
  | some (.num a), some (.num b) => a != b
  | some (.str a), some (.str b) => a != b
  | _, _ => true

/- Structural size of a `JVal`, used as a recursion budget for the
functions below that recurse through nested arrays/objects (the budget
strictly shrinks when descending into any element, so it never runs out
when initialised with the size of the value at hand). -/
mutual
def jsize : JVal → Nat
  | .null => 1
  | .bool _ => 1
  | .num _ => 1
  | .str _ => 1
  | .arr vs => 1 + jsizeL vs
  | .obj ps => 1 + jsizeP ps
def jsizeL : List JVal → Nat
  | [] => 0
  | v :: r => jsize v + jsizeL r
def jsizeP : List (String × JVal) → Nat
  | [] => 0
  | p :: r => jsize p.2 + jsizeP r
end

/-- JS `String(x)` conversion (`fuel`-bounded for nested arrays; the wrapper
below always supplies enough fuel). -/
def jsToStringGo : Nat → JVal → String
  | 0, _ => ""
  | _ + 1, .null => "null"
  | _ + 1, .bool b => cond b "true" "false"
  | _ + 1, .num n => toString n
  | _ + 1, .str s => s
  | _ + 1, .obj _ => "[object Object]"
  | fuel + 1, .arr vs =>
      String.intercalate ","
        (vs.map (fun v => match v with
          | .null => ""
          | w => jsToStringGo fuel w))

def jsToString (v : JVal) : String :=
  jsToStringGo (jsize v) v

/-- JS whitespace (the regex class `\s` and the set trimmed by
`String.prototype.trim`). -/
def jsSpace (c : Char) : Bool :=
  c = ' ' || c = '\t' || c = '\n' || c = '\r' ||
  c = Char.ofNat 0x0B || c = Char.ofNat 0x0C ||
  c = Char.ofNat 0xA0 || c = Char.ofNat 0x1680 ||
  (0x2000 ≤ c.toNat && c.toNat ≤ 0x200A) ||
  c = Char.ofNat 0x2028 || c = Char.ofNat 0x2029 ||
  c = Char.ofNat 0x202F || c = Char.ofNat 0x205F ||
  c = Char.ofNat 0x3000 || c = Char.ofNat 0xFEFF

def jsTrimList (l : List Char) : List Char :=
  ((l.dropWhile jsSpace).reverse.dropWhile jsSpace).reverse

/-- `s.trim()`. -/
def jsTrim (s : String) : String :=
  String.mk (jsTrimList s.data)

/-- `x.length` for a value known not to be `null`/`undefined`: the length of
strings and arrays, the `length` property of objects, `undefined`
otherwise. -/
def jsLenVal : JVal → Option JVal
  | .str s => some (.num s.length)
  | .arr vs => some (.num vs.length)
  | .obj pairs => lookupObj pairs "length"
  | _ => none

def jsLenOpt : Option JVal → Option JVal
  | some v => jsLenVal v
  | none => none

/-- JS `>` comparison restricted to the cases arising here: two numbers, or
two strings (code-unit lexicographic); every mixed or `undefined`
comparison yields `false` (as `undefined` comparisons do in JS). -/
def jsGT : Option JVal → Option JVal → Bool
  | some (.num a), some (.num b) => a > b
  | some (.str a), some (.str b) => b < a
  | _, _ => false

/-
The `for (const [key, v] of Object.entries(source))`-style loops of the
resolvers all have the shape "read the accumulator object at `key`, decide,
possibly overwrite `key`".  `foldAssignM` captures that shape; each loop
supplies its own decision function `upd` (whose `none` result means "leave
the accumulator unchanged").
-/
def foldStepM (upd : String → JVal → Option JVal → Except Unit (Option JVal))
    (acc : List (String × JVal)) (p : String × JVal) :
    Except Unit (List (String × JVal)) := do
  match ← upd p.1 p.2 (lookupObj acc p.1) with
  | some w => pure (setKey acc p.1 w)
  | none => pure acc

def foldAssignM (upd : String → JVal → Option JVal → Except Unit (Option JVal))
    (init : List (String × JVal)) (pairs : List (String × JVal)) :
    Except Unit (List (String × JVal)) :=
  pairs.foldlM (foldStepM upd) init

/-- `[...(target || [])]` array spread (variant A `deepMerge`, line 308):
falsy targets spread to `[]`, arrays copy, strings spread to their
characters, and truthy non-iterable values (numbers, plain objects) throw
`TypeError`. -/
def arraySpread : Option JVal → Except Unit (List JVal)
  | none => .ok []
  | some .null => .ok []
  | some (.bool b) => if b then .error () else .ok []
  | some (.num n) => if n = 0 then .ok [] else .error ()
  | some (.str s) => .ok (s.data.map (fun c => .str (String.mk [c])))
  | some (.arr vs) => .ok vs
  | some (.obj _) => .error ()

/-- `ConflictResolver.deepMerge(target, source, resolver)` of resolver
variant A (`merge-resolver.ts` lines 300-322), fuel-bounded.

* a falsy or non-`object` source is returned as is (this covers `null`,
  whose `typeof` is `"object"` but which is falsy);
* an array source builds `[...(target || [])]` and walks
  `Object.entries(source)` (index keys, in order);
* an object source builds `{ ...(target || {}) }` and walks its entries;
* per entry: a (non-null, non-array) object value recurses into
  `result[key]`; otherwise, if `key in result`, the resolver decides;
  otherwise the source value is assigned. -/
def deepMergeGo (resolver : String → JVal → JVal → Except Unit JVal) :
    Nat → Option JVal → JVal → Except Unit JVal
  | 0, _, _ => .error ()
  | _ + 1, _, .null => .ok .null
  | _ + 1, _, .bool b => .ok (.bool b)
  | _ + 1, _, .num n => .ok (.num n)
  | _ + 1, _, .str s => .ok (.str s)
  | fuel + 1, target, .arr elems => do
    let init ← arraySpread target
    let res ← elems.enum.foldlM (fun (acc : List JVal) (p : Nat × JVal) => do
        match p.2 with
        | .obj inner => do
          let m ← deepMergeGo resolver fuel (acc.get? p.1) (.obj inner)
          pure (listSet acc p.1 m)
        | v =>
          if p.1 < acc.length then do
            let r ← resolver (toString p.1) (acc.getD p.1 .null) v
            pure (listSet acc p.1 r)
          else
            pure (listSet acc p.1 v)) init
    pure (.arr res)
  | fuel + 1, target, .obj pairs =>
    (foldAssignM (fun k v cur =>
        match v with
        | .obj inner => (deepMergeGo resolver fuel cur (.obj inner)).map some
        | v =>
          match cur with
          | some c => (resolver k c v).map some
          | none => .ok (some v)) (spreadObj target) pairs).map .obj

def deepMerge (resolver : String → JVal → JVal → Except Unit JVal)
    (target : Option JVal) (source : JVal) : Except Unit JVal :=
  deepMergeGo resolver (jsize source) target source

/-- The conflict resolver callback of variant A's `smartResolveMeta`
(lines 148-165): when both sides are `typeof "object"`, prefer the side
with longer string content, falling through to a hash comparison whose
branches both return `theirs` (the reads are kept because they can throw
on `null`); non-object sides always resolve to `theirs`. -/
def metaResolverA (_key : String) (ours theirs : JVal) : Except Unit JVal := do
  if jsTypeofObj ours && jsTypeofObj theirs then do
    let oc ← jsGet ours "content"
    if truthyOpt oc then do
      let tc ← jsGet theirs "content"
      if truthyOpt tc && isStrOpt tc then
        pure (if jsGT (jsLenOpt tc) (jsLenOpt oc) then theirs else ours)
      else do
        let oh ← jsGet ours "hash"
        if truthyOpt oh then do
          let _th ← jsGet theirs "hash"
          pure theirs
        else pure theirs
    else do
      let oh ← jsGet ours "hash"
      if truthyOpt oh then do
        let _th ← jsGet theirs "hash"
        pure theirs
      else pure theirs
  else
    pure theirs

/-- The conflict resolver callback of variant A's `smartResolveDictionary`
(lines 194-216): on the `content` key with two `typeof "object"` sides,
merge locale-by-locale starting from `{ ...ours }`, overwriting a locale
when it is absent/falsy in the accumulator or when `theirs` holds a
strictly longer (trimmed) string; every other conflict resolves to
`theirs`. -/
def dictResolverA (key : String) (ours theirs : JVal) : Except Unit JVal := do
  if key = "content" && jsTypeofObj ours && jsTypeofObj theirs then do
    let tpairs ← jsEntries theirs
    let merged := tpairs.foldl (fun acc (p : String × JVal) =>
        let cur := lookupObj acc p.1
        if !truthyOpt cur ||
           (truthy p.2 && isStr p.2 &&
            decide ((jsTrim (jsToString p.2)).length >
                    (jsTrim (jsToString (cur.getD .null))).length)) then
          setKey acc p.1 p.2
        else acc) (spreadObj (some ours))
    pure (.obj merged)
  else
    pure theirs

/-- Split on `/\n/` only (used by `parseJSONFragment`'s line fallback,
line 241). -/
def splitNOnly : List Char → List (List Char)
  | [] => [[]]
  | '\n' :: rest => [] :: splitNOnly rest
  | c :: rest =>
    match splitNOnly rest with
    | [] => [[c]]
    | l :: ls => (c :: l) :: ls

/-- `.replace(/^["']|["']$/g, "")` (line 253): drop one leading and one
trailing quote character. -/
def stripQuoteEnds (s : String) : String :=
  let l := s.data
  let l1 := match l with
    | c :: rest => if c = '"' || c = '\'' then rest else l
    | [] => []
  let l2 := if (l1.getLast?).any (fun c => c = '"' || c = '\'') then l1.dropLast else l1
  String.mk l2

/-- `.replace(/\\"/g, '"')` (line 254). -/
def unescQuotes : List Char → List Char
  | '\\' :: '"' :: rest => '"' :: unescQuotes rest
  | c :: rest => c :: unescQuotes rest
  | [] => []

/-- One attempt of the regex `/"([^"]+)"\s*:\s*(.+)/` starting right after
an opening quote: a nonempty run of non-quote characters, a closing quote,
optional whitespace, a colon, then `\s*(.+)` — greedily skip whitespace and
capture the following run of non-line-terminator characters; if only
whitespace remains, the regex backtracks to capture the last
non-line-terminator whitespace character. -/
def kvCapture (tail : List Char) : Option String :=
  let sp := tail.takeWhile jsSpace
  let rest := tail.drop sp.length
  match rest with
  | c :: _ =>
    if isLineTerm c then none
    else some (String.mk (rest.takeWhile (fun c' => !isLineTerm c')))
  | [] =>
    match (sp.reverse.dropWhile isLineTerm) with
    | c :: _ => some (String.mk [c])
    | [] => none

def kvAttempt (l : List Char) : Option (String × String) :=
  let key := l.takeWhile (fun c => c != '"')
  let rest := l.drop key.length
  match key, rest with
  | [], _ => none
  | _, '"' :: rest2 =>
    let rest3 := rest2.dropWhile jsSpace
    match rest3 with
    | ':' :: rest4 => (kvCapture rest4).map (fun cap => (String.mk key, cap))
    | _ => none
  | _, _ => none

/-- `trimmed.match(/"([^"]+)"\s*:\s*(.+)/)` (line 246): try the pattern at
each successive position; a match can only begin at a quote. -/
def kvSearch : List Char → Option (String × String)
  | [] => none
  | '"' :: rest => (kvAttempt rest).orElse (fun _ => kvSearch rest)
  | _ :: rest => kvSearch rest

/-- One line of `parseJSONFragment`'s fallback loop (lines 243-257):
lines whose trimmed text contains a colon contribute
`result[key] = JSON.parse(capture)`, falling back to the quote-stripped,
unescaped capture text when that parse fails.  `p` models `JSON.parse`
(returning `none` where it would throw). -/
def fragmentLineKV (p : String → Option JVal)
    (acc : List (String × JVal)) (line : String) : List (String × JVal) :=
  let trimmed := jsTrim line
  if trimmed.data.contains ':' then
    match kvSearch trimmed.data with
    | some (key, capture) =>
      match p capture with
      | some v => setKey acc key v
      | none => setKey acc key (.str (String.mk (unescQuotes (stripQuoteEnds capture).data)))
    | none => acc
  else acc

/-- `s.startsWith(pre)` over character lists, faithful to
`String.startsWith` but kernel-reducible. -/
def strStartsWith (s pre : String) : Bool :=
  s.data.take pre.data.length = pre.data

/-- `s.endsWith(suf)` over character lists, faithful to `String.endsWith`
but kernel-reducible. -/
def strEndsWith (s suf : String) : Bool :=
  s.data.drop (s.data.length - suf.data.length) = suf.data &&
  suf.data.length ≤ s.data.length

/-- `ConflictResolver.parseJSONFragment(fragment)` of resolver variant A
(lines 226-265), parameterised by `p`, the model of `JSON.parse`: trim; if
the text is brace-delimited parse it directly, otherwise parse it wrapped
in braces; if that throws, fall back to scanning the fragment's lines for
`"key": value` pairs, returning `null` (:= `none`) when no pair is found. -/
def parseJSONFragment (p : String → Option JVal) (fragment : String) : Option JVal :=
  let trimmed := jsTrim fragment
  let firstTry :=
    if strStartsWith trimmed "\x7b" && strEndsWith trimmed "\x7d" then p trimmed
    else p ("\x7b" ++ trimmed ++ "\x7d")
  match firstTry with
  | some v => some v
  | none =>
    let lines := (splitNOnly fragment.data).map String.mk
    let result := lines.foldl (fragmentLineKV p) []
    if result.length > 0 then some (.obj result) else none

/-- `\w` word characters. -/
def isWordChar (c : Char) : Bool :=
  c.isAlphanum || c = '_'

/-- `.replace(/'/g, '"')` (line 272). -/
def replaceQuotes (l : List Char) : List Char :=
  l.map (fun c => if c = '\'' then '"' else c)

/-- `.replace(/(\w+):/g, '"$1":')` (line 273): each maximal word run that is
immediately followed by a colon gets wrapped in quotes; scanning continues
after the colon of a match and one character past a failed position. -/
def quoteKeysGo : Nat → List Char → List Char
  | 0, l => l
  | _, [] => []
  | fuel + 1, c :: rest =>
    if isWordChar c then
      let run := c :: rest.takeWhile isWordChar
      match rest.dropWhile isWordChar with
      | ':' :: tail => '"' :: (run ++ '"' :: ':' :: quoteKeysGo fuel tail)
      | _ => c :: quoteKeysGo fuel rest
    else c :: quoteKeysGo fuel rest

def quoteKeys (l : List Char) : List Char :=
  quoteKeysGo (l.length + 1) l

/-- `.replace(/,\s*\n\s*C/g, "C")` for a closing character `C` (`}` or `]`,
lines 274-275): a comma followed by a whitespace run that contains a
newline and ends at `C` collapses to `C`. -/
def stripCommaGo (close : Char) : Nat → List Char → List Char
  | 0, l => l
  | _, [] => []
  | fuel + 1, c :: rest =>
    if c = ',' then
      let sp := rest.takeWhile jsSpace
      match sp.contains '\n', rest.drop sp.length with
      | true, c2 :: tail =>
        if c2 = close then close :: stripCommaGo close fuel tail
        else c :: stripCommaGo close fuel rest
      | _, _ => c :: stripCommaGo close fuel rest
    else c :: stripCommaGo close fuel rest

def stripComma (close : Char) (l : List Char) : List Char :=
  stripCommaGo close (l.length + 1) l

/-- `.replace(/;$/g, "")` (line 276): drop a final semicolon. -/
def stripSemiEnd (l : List Char) : List Char :=
  if l.getLast? = some ';' then l.dropLast else l

/-- `ConflictResolver.parseJSFragment(fragment)` of resolver variant A
(lines 267-282): normalise the object-literal text (single quotes to
double, quote unquoted keys, drop trailing commas and a final semicolon)
and defer to `parseJSONFragment`. -/
def parseJSFragment (p : String → Option JVal) (fragment : String) : Option JVal :=
  let cleaned := (jsTrim fragment).data
  let cleaned := replaceQuotes cleaned
  let cleaned := quoteKeys cleaned
  let cleaned := stripComma '}' cleaned
  let cleaned := stripComma ']' cleaned
  let cleaned := stripSemiEnd cleaned
  parseJSONFragment p (String.mk cleaned)

/-- `ConflictResolver.smartResolveMeta` of resolver variant A
(lines 130-174).  `p` models `JSON.parse`; `fmt` models
`formatJSONFragment` (lines 284-294, a pretty-printer whose output shape no
claim depends on).  The `catch` of the surrounding `try` returns
`conflict.ours`. -/
def smartResolveMetaA (p : String → Option JVal) (fmt : JVal → String)
    (c : ConflictSection) : String :=
  let oursData := parseJSONFragment p c.ours
  let theirsData := parseJSONFragment p c.theirs
  if !truthyOpt oursData && !truthyOpt theirsData then c.ours
  else if !truthyOpt oursData then c.theirs
  else if !truthyOpt theirsData then c.ours
  else
    match deepMerge metaResolverA oursData (theirsData.getD .null) with
    | .ok merged => fmt merged
    | .error _ => c.ours

/-- `ConflictResolver.smartResolveDictionary` of resolver variant A
(lines 176-224), structured like `smartResolveMetaA` with
`parseJSFragment` and the dictionary resolver callback. -/
def smartResolveDictionaryA (p : String → Option JVal) (fmt : JVal → String)
    (c : ConflictSection) : String :=
  let oursData := parseJSFragment p c.ours
  let theirsData := parseJSFragment p c.theirs
  if !truthyOpt oursData && !truthyOpt theirsData then c.ours
  else if !truthyOpt oursData then c.theirs
  else if !truthyOpt theirsData then c.ours
  else
    match deepMerge dictResolverA oursData (theirsData.getD .null) with
    | .ok merged => fmt merged
    | .error _ => c.ours

/-- `parseJSON` of resolver variants B/C (lines 720-726 / 1044-1050):
`JSON.parse(content.trim())`, `null` on failure.  `p` models
`JSON.parse`. -/
def parseJSONB (p : String → Option JVal) (content : String) : Option JVal :=
  p (jsTrim content)

/-- The scope-conflict decision of variant B's `smartResolveMeta`
(lines 492-510): for a key of `theirsScopes`, when `oursScopes[key]` is
truthy, compare hashes (a `null` scope value throws on the property read);
on differing hashes prefer `theirs` iff its `content` is truthy and ours'
content is falsy or strictly shorter, else keep `ours`; on equal hashes
leave the spread value (which is `theirs`) in place. -/
def scopeUpdB (oursScopes : JVal) (key : String) (theirScope : JVal)
    (_cur : Option JVal) : Except Unit (Option JVal) := do
  let ovOpt ← jsGet oursScopes key
  if truthyOpt ovOpt then do
    let ourScope := ovOpt.getD .null
    let th ← jsGet theirScope "hash"
    let oh ← jsGet ourScope "hash"
    if jsStrictNeq th oh then do
      let tc ← jsGet theirScope "content"
      if truthyOpt tc then do
        let oc ← jsGet ourScope "content"
        if !truthyOpt oc || jsGT (jsLenOpt tc) (jsLenOpt oc) then
          pure (some theirScope)
        else pure (some ourScope)
      else pure (some ourScope)
    else pure none
  else pure none

/-- The scope merge of variant B's `smartResolveMeta` (lines 489-510):
`mergedScopes = { ...oursScopes, ...theirsScopes }` followed by the
conflict loop over `Object.entries(theirsScopes)`. -/
def mergeScopesBVal (oursScopes theirsScopes : JVal) :
    Except Unit (List (String × JVal)) := do
  let tpairs ← jsEntries theirsScopes
  foldAssignM (scopeUpdB oursScopes)
    (objAssign (spreadObj (some oursScopes)) (spreadObj (some theirsScopes))) tpairs

/-- `ConflictResolver.smartResolveMeta` of resolver variant B
(lines 477-523): parse `{${ours}}` and `{${theirs}}`; if either side is
falsy, return `ours` when `ours` parsed and `theirs` otherwise; else merge
the scopes.  `fmtB` models the inline serialisation (lines 513-518). -/
def smartResolveMetaB (p : String → Option JVal)
    (fmtB : List (String × JVal) → String) (c : ConflictSection) : String :=
  let oursScopes := parseJSONB p ("\x7b" ++ c.ours ++ "\x7d")
  let theirsScopes := parseJSONB p ("\x7b" ++ c.theirs ++ "\x7d")
  if !truthyOpt oursScopes || !truthyOpt theirsScopes then
    (if truthyOpt oursScopes then c.ours else c.theirs)
  else
    match mergeScopesBVal (oursScopes.getD .null) (theirsScopes.getD .null) with
    | .ok merged => fmtB merged
    | .error _ => c.ours

/-- The entry-conflict decision of variant B's `smartResolveDictionary`
(lines 543-579): when `oursEntries[key]` is truthy and both entries'
`content` fields are truthy, rebuild the entry as
`{ ...theirEntry, content: mergedContent }` where `mergedContent` starts
from `{ ...ours.content, ...theirs.content }` and, for each locale of
`theirs.content` that is truthy in `ours.content`, keeps the strictly
longer (trimmed) translation with ties going to `ours`. -/
def entryUpdB (oursEntries : JVal) (key : String) (theirEntry : JVal)
    (_cur : Option JVal) : Except Unit (Option JVal) := do
  let ovOpt ← jsGet oursEntries key
  if truthyOpt ovOpt then do
    let ourEntry := ovOpt.getD .null
    let tc ← jsGet theirEntry "content"
    if truthyOpt tc then do
      let oc ← jsGet ourEntry "content"
      if truthyOpt oc then do
        let init := objAssign (spreadObj (some (oc.getD .null)))
          (spreadObj (some (tc.getD .null)))
        let tpairs ← jsEntries (tc.getD .null)
        let mergedContent ← tpairs.foldlM
          (fun (acc : List (String × JVal)) (q : String × JVal) => do
            let ocur ← jsGet (oc.getD .null) q.1
            if truthyOpt ocur then
              let ourTranslation := ocur.getD .null
              if truthy q.2 &&
                 decide ((jsTrim (jsToString q.2)).length >
                         (jsTrim (jsToString ourTranslation)).length) then
                pure (setKey acc q.1 q.2)
              else
                pure (setKey acc q.1 ourTranslation)
            else pure acc) init
        pure (some (.obj (setKey (spreadObj (some theirEntry)) "content" (.obj mergedContent))))
      else pure none
    else pure none
  else pure none

/-- The entry merge of variant B's `smartResolveDictionary`
(lines 540-579): `mergedEntries = { ...oursEntries, ...theirsEntries }`
followed by the conflict loop. -/
def mergeEntriesBVal (oursEntries theirsEntries : JVal) :
    Except Unit (List (String × JVal)) := do
  let tpairs ← jsEntries theirsEntries
  foldAssignM (entryUpdB oursEntries)
    (objAssign (spreadObj (some oursEntries)) (spreadObj (some theirsEntries))) tpairs

/-- The locale loop of variant C's `mergeDictionary` (lines 1018-1027):
`ourEntry.content[locale] = translation` whenever the current value is
falsy or the incoming translation is truthy with nonempty trimmed string
form.  The accumulator is the (mutated) `content` value; writes throw on a
primitive. -/
def mergeContentLoopC (content : JVal) (tpairs : List (String × JVal)) :
    Except Unit JVal :=
  tpairs.foldlM (fun c p => do
    let cur ← jsGet c p.1
    if !truthyOpt cur || (truthy p.2 && !(jsTrim (jsToString p.2)).isEmpty) then
      jsSetProp c p.1 p.2
    else pure c) content

/-- The entry-merge body of variant C's `mergeDictionary`
(lines 1010-1033): when `theirEntry.content` is truthy, default
`ourEntry.content` to `{}`, run the locale loop, and finally overwrite
`ourEntry.hash` with `theirEntry.hash` when the latter is truthy and
strictly different. -/
def mergeEntryC (ourEntry theirEntry : JVal) : Except Unit JVal := do
  let tc ← jsGet theirEntry "content"
  let e1 ←
    (if truthyOpt tc then do
      let oc ← jsGet ourEntry "content"
      let oc0 := if truthyOpt oc then oc.getD .null else .obj []
      let e ← jsSetProp ourEntry "content" oc0
      let tpairs ← jsEntries (tc.getD .null)
      let newContent ← mergeContentLoopC oc0 tpairs
      jsSetProp e "content" newContent
    else pure ourEntry)
  let th ← jsGet theirEntry "hash"
  if truthyOpt th then do
    let oh ← jsGet e1 "hash"
    if jsStrictNeq th oh then jsSetProp e1 "hash" (th.getD .null)
    else pure e1
  else pure e1

/-- The entries loop of variant C's `mergeDictionary` (lines 1004-1035):
entries new to `theirs` are assigned, entries present on both sides are
merged by `mergeEntryC`. -/
def mergeEntriesC (ourEntries theirEntries : JVal) : Except Unit JVal := do
  let tpairs ← jsEntries theirEntries
  tpairs.foldlM (fun acc p => do
    let cur ← jsGet acc p.1
    if !truthyOpt cur then jsSetProp acc p.1 p.2
    else do
      let merged ← mergeEntryC (cur.getD .null) p.2
      jsSetProp acc p.1 merged) ourEntries

/-- The per-file body of variant C's `mergeDictionary` (lines 1001-1036):
when `theirFile.entries` is truthy, default `ourFile.entries` to `{}` and
merge the entries. -/
def mergeFileC (ourFile theirFile : JVal) : Except Unit JVal := do
  let te ← jsGet theirFile "entries"
  if truthyOpt te then do
    let oe ← jsGet ourFile "entries"
    let oe0 := if truthyOpt oe then oe.getD .null else .obj []
    let f1 ← jsSetProp ourFile "entries" oe0
    let newEntries ← mergeEntriesC oe0 (te.getD .null)
    jsSetProp f1 "entries" newEntries
  else pure ourFile

/-- `ConflictResolver.mergeDictionary` of resolver variant C
(lines 981-1042): `merged = { ...ours }`, take the higher version, then
merge `theirs.files` file by file. -/
def mergeDictionaryC (ours theirs : JVal) : Except Unit JVal := do
  let merged := JVal.obj (spreadObj (some ours))
  let tv ← jsGet theirs "version"
  let ov ← jsGet ours "version"
  let m1 ← if jsGT tv ov then jsSetProp merged "version" (tv.getD .null) else pure merged
  let tf ← jsGet theirs "files"
  if truthyOpt tf then do
    let mf ← jsGet m1 "files"
    let mf0 := if truthyOpt mf then mf.getD .null else .obj []
    let m2 ← jsSetProp m1 "files" mf0
    let fpairs ← jsEntries (tf.getD .null)
    let newFiles ← fpairs.foldlM (fun acc p => do
        let cur ← jsGet acc p.1
        if !truthyOpt cur then jsSetProp acc p.1 p.2
        else do
          let mergedFile ← mergeFileC (cur.getD .null) p.2
          jsSetProp acc p.1 mergedFile) mf0
    jsSetProp m2 "files" newFiles
  else pure m1

/-- `/^export\s+default\s+/` stripped from the front (line 336). -/
def stripExportDefault (l : List Char) : List Char :=
  if l.take 6 = "export".data then
    let r1 := l.drop 6
    let sp1 := r1.takeWhile jsSpace
    if sp1.isEmpty then l
    else
      let r2 := r1.drop sp1.length
      if r2.take 7 = "default".data then
        let r3 := r2.drop 7
        let sp2 := r3.takeWhile jsSpace
        if sp2.isEmpty then l else r3.drop sp2.length
      else l
  else l

/-- `.replace(/;?\s*$/, "")` (line 337): drop trailing whitespace and one
preceding semicolon. -/
def stripSemiWsEnd (l : List Char) : List Char :=
  let l1 := l.reverse.dropWhile jsSpace
  (match l1 with
   | ';' :: rest => rest
   | _ => l1).reverse

/-- `ConflictResolver.validateResolvedContent` of resolver variant A
(lines 324-351): `meta.json` must `JSON.parse` as is; `dictionary.*` must
parse after stripping the export wrapper and normalising the literal; any
other file is valid.  The source error message carries the engine's
`error.message`; we model it by its fixed prefix. -/
def validationOf (r : Option JVal) : Bool × Option String :=
  match r with
  | some _ => (true, none)
  | none => (false, some "Invalid syntax after resolution")

def validateResolvedContent (p : String → Option JVal) (fileName content : String) :
    Bool × Option String :=
  if fileName = "meta.json" then
    validationOf (p content)
  else if strStartsWith fileName "dictionary." then
    let cleaned := stripExportDefault content.data
    let cleaned := stripSemiWsEnd cleaned
    let cleaned := replaceQuotes cleaned
    let cleaned := quoteKeys cleaned
    let cleaned := stripComma '}' cleaned
    let cleaned := stripComma ']' cleaned
    validationOf (p (String.mk cleaned))
  else (true, none)

/-- `ResolverOptions.strategy`. -/
inductive Strategy where
  | smart
  | ours
  | theirs
  deriving DecidableEq, Repr

def strategyStr : Strategy → String
  | .smart => "smart"
  | .ours => "ours"
  | .theirs => "theirs"

structure ResolverOptions where
  strategy : Strategy
  verbose : Bool
  dryRun : Bool
  backup : Bool
  deriving DecidableEq, Repr

/-- `ResolutionResult` (lines 13-18). -/
structure ResolutionResult where
  success : Bool
  conflictsResolved : Nat
  error : Option String
  details : Option String
  deriving DecidableEq, Repr

/-- `ConflictResolver.resolveConflict` + `smartResolve` of resolver
variant A (lines 105-128); `fileName` is `path.basename(filePath)`,
precomputed by the caller. -/
def resolveConflictModel (p : String → Option JVal) (fmt : JVal → String)
    (strategy : Strategy) (fileName : String) (c : ConflictSection) : String :=
  match strategy with
  | .ours => c.ours
  | .theirs => c.theirs
  | .smart =>
    if fileName = "meta.json" then smartResolveMetaA p fmt c
    else if strStartsWith fileName "dictionary." then smartResolveDictionaryA p fmt c
    else c.ours

/-- `getResolutionDetails` (lines 353-359). -/
def getResolutionDetails (n : Nat) (fileName : String) (strategy : Strategy) : String :=
  "Resolved " ++ toString n ++ " conflict(s) in " ++ fileName ++ " using " ++
    strategyStr strategy ++ " strategy"

/-- `ConflictResolver.resolveFile` of resolver variant A (lines 25-103)
without the file-system layer: the content has already been read, and the
oversized-file guard (lines 27-35, an I/O-layer `fs.statSync` check that
precedes everything modelled here) has passed.  Returns the
`ResolutionResult` together with the content written back to the file
(`none` when nothing is written: failure or dry run) and the content
written to the backup file. -/
def resolveFileModel (p : String → Option JVal) (fmt : JVal → String)
    (opts : ResolverOptions) (fileName content : String) :
    ResolutionResult × Option String × Option String :=
  if !hasConflictMarkers content then
    (⟨true, 0, none, some "No conflicts found"⟩, none, none)
  else
    let conflicts := parseConflicts content
    if conflicts.length = 0 then
      (⟨false, 0, some "Invalid conflict markers detected", none⟩, none, none)
    else
      let backupWrite := if opts.backup && !opts.dryRun then some content else none
      let resolvedContent :=
        resolveConflicts content (resolveConflictModel p fmt opts.strategy fileName)
      let validation := validateResolvedContent p fileName resolvedContent
      if !validation.1 then
        (⟨false, 0, validation.2, none⟩, none, backupWrite)
      else
        (⟨true, conflicts.length, none,
          if opts.verbose then
            some (getResolutionDetails conflicts.length fileName opts.strategy)
          else none⟩,
         if opts.dryRun then none else some resolvedContent, backupWrite)

/-
Auxiliary definitions used by theorem statements below (spec side).
-/

/-- Total property read for a value known not to be `null` (where `jsGet`
cannot throw); on `null` it returns `undefined`, which callers exclude. -/
def jsProp : JVal → String → Option JVal
  | .obj pairs, k => lookupObj pairs k
  | .str s, k =>
      if k = "length" then some (.num s.length)
      else match k.toNat? with
           | some i => (s.data.get? i).map (fun c => .str (String.mk [c]))
           | none => none
  | .arr vs, k =>
      if k = "length" then some (.num vs.length)
      else match k.toNat? with
           | some i => vs.get? i
           | none => none
  | _, _ => none

/-- The per-locale decision taken by `mergeContentLoopC` (variant C,
lines 1021-1026), extracted for the object-accumulator case. -/
def localeUpdC (_k : String) (translation : JVal) (cur : Option JVal) :
    Except Unit (Option JVal) :=
  if !truthyOpt cur || (truthy translation && !(jsTrim (jsToString translation)).isEmpty) then
    pure (some translation)
  else pure none

/-- Left-to-right description of a spliced document: the lines before each
section, the resolver's output in place of the section's line range, and
the remaining lines after the last section.  The frame theorem for
`resolveConflicts` equates the implementation's last-to-first splicing with
this description. -/
def expectedFrom (resolver : ConflictSection → String) (lines : List String) :
    Nat → List ConflictSection → List String
  | i, [] => lines.drop i
  | i, c :: rest =>
    (lines.drop i).take (c.startLine - i) ++ splitLines (resolver c) ++
      expectedFrom resolver lines (c.endLine + 1) rest

/-- Well-formedness of one parsed conflict section with respect to the
document's line list: the line range is ordered and in bounds, the
boundary lines are a start marker and an end marker, the end marker is the
only end-marker line in the section, and at least one middle-marker line
lies strictly inside. -/
def SectionWF (lines : List String) (c : ConflictSection) : Prop :=
  c.startLine < c.endLine ∧ c.endLine < lines.length ∧
  (∃ l, lines.get? c.startLine = some l ∧ isStartLine l = true) ∧
  (∃ l, lines.get? c.endLine = some l ∧ isEndLine l = true) ∧
  (∀ j, c.startLine ≤ j → j < c.endLine → ∀ l, lines.get? j = some l →
    isEndLine l = false) ∧
  (∃ m lm, c.startLine < m ∧ m < c.endLine ∧ lines.get? m = some lm ∧
    isMiddleLine lm = true)

/-- The `ourEntry.content = ourEntry.content || {}` defaulting step shared
by variants B and C (lines 556 and 1015), named for use in proofs; it is
definitionally the `let oc0 := ...` of `mergeEntryC` and `entryUpdB`. -/
def ourContent0 (oc : Option JVal) : JVal :=
  if truthyOpt oc then oc.getD .null else JVal.obj []

/-
Theorems.  First, library lemmas about the object operations.
-/

theorem bind_ok {α β : Type} (a : Except Unit α) (f : α → Except Unit β) (b : β)
    (h : Bind.bind a f = .ok b) : ∃ x, a = .ok x ∧ f x = .ok b := by
  cases a with
  | error e => simp [Bind.bind, Except.bind] at h
  | ok x => exact ⟨x, rfl, by simpa [Bind.bind, Except.bind] using h⟩

theorem lookupObj_setKey_self (ps : List (String × JVal)) (k : String) (v : JVal) :
    lookupObj (setKey ps k v) k = some v := by
  induction ps with
  | nil => simp [setKey, lookupObj]
  | cons p rest ih =>
    obtain ⟨k', v'⟩ := p
    by_cases h : k' = k
    · simp [setKey, h, lookupObj]
    · simp [setKey, h, lookupObj, ih]

theorem lookupObj_setKey_ne (ps : List (String × JVal)) (k k' : String) (v : JVal)
    (h : k' ≠ k) : lookupObj (setKey ps k v) k' = lookupObj ps k' := by
  have hne : k ≠ k' := Ne.symm h
  induction ps with
  | nil => simp [setKey, lookupObj, hne]
  | cons p rest ih =>
    obtain ⟨k'', v''⟩ := p
    by_cases h2 : k'' = k
    · subst h2
      simp [setKey, lookupObj, hne]
    · simp only [setKey, if_neg h2, lookupObj]
      by_cases h3 : k'' = k'
      · simp [h3]
      · simp [h3, ih]

theorem lookupObj_eq_none (ps : List (String × JVal)) (k : String)
    (h : k ∉ ps.map Prod.fst) : lookupObj ps k = none := by
  induction ps with
  | nil => rfl
  | cons p rest ih =>
    obtain ⟨k0, v0⟩ := p
    simp only [List.map_cons, List.mem_cons, not_or] at h
    simp only [lookupObj]
    rw [if_neg (fun hh => h.1 hh.symm)]
    exact ih h.2

theorem mem_keys_of_lookupObj (ps : List (String × JVal)) (k : String) (w : JVal)
    (h : lookupObj ps k = some w) : k ∈ ps.map Prod.fst := by
  induction ps with
  | nil => simp [lookupObj] at h
  | cons p rest ih =>
    obtain ⟨k0, v0⟩ := p
    simp only [lookupObj] at h
    by_cases h2 : k0 = k
    · simp [h2]
    · simp only [if_neg h2] at h
      simp [ih h]

theorem foldStepM_eq (upd : String → JVal → Option JVal → Except Unit (Option JVal))
    (acc : List (String × JVal)) (p : String × JVal) :
    foldStepM upd acc p =
      match upd p.1 p.2 (lookupObj acc p.1) with
      | .error e => .error e
      | .ok (some w) => .ok (setKey acc p.1 w)
      | .ok none => .ok acc := by
  unfold foldStepM
  cases h : upd p.1 p.2 (lookupObj acc p.1) with
  | error e => simp [h, Bind.bind, Except.bind]
  | ok r => cases r <;> simp [h, Bind.bind, Except.bind, pure, Except.pure]

/-- Characterisation of a successful `foldAssignM` run when the iterated
keys are distinct: keys outside the iteration keep their initial binding;
each iterated key is decided by `upd` applied to its initial binding. -/
theorem foldAssignM_ok (upd : String → JVal → Option JVal → Except Unit (Option JVal)) :
    ∀ (pairs : List (String × JVal)) (init final : List (String × JVal)),
      (pairs.map Prod.fst).Nodup →
      foldAssignM upd init pairs = .ok final →
      (∀ k, k ∉ pairs.map Prod.fst → lookupObj final k = lookupObj init k) ∧
      (∀ k v, (k, v) ∈ pairs →
        ∃ r, upd k v (lookupObj init k) = .ok r ∧
          lookupObj final k =
            (match r with | some w => some w | none => lookupObj init k)) := by
  intro pairs
  induction pairs with
  | nil =>
    intro init final _ hok
    simp only [foldAssignM, List.foldlM] at hok
    cases hok
    exact ⟨fun _ _ => rfl, fun k v h => absurd h (List.not_mem_nil _)⟩
  | cons p rest ih =>
    intro init final hnd hok
    obtain ⟨k0, v0⟩ := p
    simp only [List.map_cons, List.nodup_cons] at hnd
    obtain ⟨hk0, hndr⟩ := hnd
    simp only [foldAssignM, List.foldlM_cons, foldStepM_eq] at hok
    cases hstep : upd k0 v0 (lookupObj init k0) with
    | error e => simp [hstep, Bind.bind, Except.bind] at hok
    | ok r0 =>
      rw [hstep] at hok
      have hmain : ∀ acc1 : List (String × JVal),
          (List.foldlM (foldStepM upd) acc1 rest = .ok final) →
          (∀ k, k ≠ k0 → lookupObj acc1 k = lookupObj init k) →
          (lookupObj acc1 k0 =
            (match r0 with | some w => some w | none => lookupObj init k0)) →
          (∀ k, k ∉ (((k0, v0) :: rest).map Prod.fst) →
              lookupObj final k = lookupObj init k) ∧
          (∀ k v, (k, v) ∈ (k0, v0) :: rest →
            ∃ r, upd k v (lookupObj init k) = .ok r ∧
              lookupObj final k =
                (match r with | some w => some w | none => lookupObj init k)) := by
        intro acc1 hfold hlift hk0val
        obtain ⟨hout, hin⟩ := ih acc1 final hndr hfold
        constructor
        · intro k hk
          simp only [List.map_cons, List.mem_cons, not_or] at hk
          obtain ⟨hk1, hk2⟩ := hk
          rw [hout k hk2, hlift k hk1]
        · intro k v hmem
          rcases List.mem_cons.mp hmem with heq | hmemr
          · have hkk : k = k0 := congrArg Prod.fst heq
            have hvv : v = v0 := congrArg Prod.snd heq
            subst hkk; subst hvv
            refine ⟨r0, hstep, ?_⟩
            rw [hout k hk0, hk0val]
            cases r0 <;> rfl
          · have hkne : k ≠ k0 := by
              intro hkeq
              exact hk0 (hkeq ▸ (List.mem_map.mpr ⟨(k, v), hmemr, rfl⟩))
            obtain ⟨r, hupd, hfin⟩ := hin k v hmemr
            rw [hlift k hkne] at hupd
            refine ⟨r, hupd, ?_⟩
            cases r with
            | none => rw [hfin, hlift k hkne]
            | some w => exact hfin
      cases r0 with
      | some w =>
        simp only [Bind.bind, Except.bind] at hok
        exact hmain (setKey init k0 w) hok
          (fun k hk => lookupObj_setKey_ne _ _ _ _ hk)
          (lookupObj_setKey_self _ _ _)
      | none =>
        simp only [Bind.bind, Except.bind] at hok
        exact hmain init hok (fun _ _ => rfl) rfl

/-- `{ ...a, ...b }` lookup, for `b` with distinct keys: bindings of `b`
win, other keys fall back to `a`. -/
theorem lookupObj_objAssign (b : List (String × JVal)) :
    ∀ (a : List (String × JVal)) (k : String), (b.map Prod.fst).Nodup →
      lookupObj (objAssign a b) k =
        (match lookupObj b k with
         | some v => some v
         | none => lookupObj a k) := by
  induction b with
  | nil => intro a k _; simp [objAssign, lookupObj]
  | cons p rest ih =>
    intro a k hnd
    obtain ⟨k0, v0⟩ := p
    simp only [List.map_cons, List.nodup_cons] at hnd
    obtain ⟨hk0, hndr⟩ := hnd
    have : objAssign a ((k0, v0) :: rest) = objAssign (setKey a k0 v0) rest := by
      simp [objAssign]
    rw [this, ih (setKey a k0 v0) k hndr]
    by_cases hk : k0 = k
    · subst hk
      have hnone : lookupObj rest k0 = none := lookupObj_eq_none _ _ hk0
      simp [lookupObj, hnone, lookupObj_setKey_self]
    · simp only [lookupObj, if_neg hk]
      cases hlk : lookupObj rest k with
      | none => simp [lookupObj_setKey_ne _ _ _ _ (fun h => hk h.symm)]
      | some w => simp

/-- Claim C6: on conflict-marker-free content, resolution succeeds
trivially with zero conflicts resolved; when markers are present but
`parseConflicts` extracts no section, resolution fails with the
invalid-markers error.  (Quantified over the `JSON.parse` model `p`, the
serialisation model `fmt`, the options and the file name.) -/
theorem resolve_clean_vs_malformed (p : String → Option JVal) (fmt : JVal → String)
    (opts : ResolverOptions) (fileName content : String) :
    (hasConflictMarkers content = false →
      resolveFileModel p fmt opts fileName content =
        (⟨true, 0, none, some "No conflicts found"⟩, none, none)) ∧
    (hasConflictMarkers content = true → parseConflicts content = [] →
      resolveFileModel p fmt opts fileName content =
        (⟨false, 0, some "Invalid conflict markers detected", none⟩, none, none)) := by
  constructor
  · intro h
    simp [resolveFileModel, h]
  · intro h1 h2
    simp [resolveFileModel, h1, h2]

theorem resolve_clean_vs_malformed_witness :
    resolveFileModel (fun _ => none) (fun _ => "") ⟨.smart, false, false, false⟩
        "meta.json" "x" =
      (⟨true, 0, none, some "No conflicts found"⟩, none, none) ∧
    resolveFileModel (fun _ => none) (fun _ => "") ⟨.smart, false, false, false⟩
        "meta.json" (">>>>>>> a\n=======\n<<<<<<< b") =
      (⟨false, 0, some "Invalid conflict markers detected", none⟩, none, none) :=
  ⟨(resolve_clean_vs_malformed (fun _ => none) (fun _ => "")
      ⟨.smart, false, false, false⟩ "meta.json" "x").1 rfl,
   (resolve_clean_vs_malformed (fun _ => none) (fun _ => "")
      ⟨.smart, false, false, false⟩ "meta.json" (">>>>>>> a\n=======\n<<<<<<< b")).2 rfl rfl⟩

/-- Claim C7: when the spliced candidate text fails structural validation
for its format, resolution fails, the error names the syntax failure, and
neither the resolved candidate nor anything else is written back to the
file (the second component of the model, the file write, is `none`). -/
theorem resolve_validation_atomic (p : String → Option JVal) (fmt : JVal → String)
    (opts : ResolverOptions) (fileName content : String) :
    hasConflictMarkers content = true →
    parseConflicts content ≠ [] →
    (validateResolvedContent p fileName
      (resolveConflicts content (resolveConflictModel p fmt opts.strategy fileName))).1 = false →
    resolveFileModel p fmt opts fileName content =
      (⟨false, 0, some "Invalid syntax after resolution", none⟩, none,
       if opts.backup && !opts.dryRun then some content else none) := by
  intro h1 h2 h3
  have hlen : ¬((parseConflicts content).length = 0) := by
    intro h; exact h2 (List.length_eq_zero.mp h)
  have hvalOf : ∀ r : Option JVal, (validationOf r).1 = false →
      (validationOf r).2 = some "Invalid syntax after resolution" := by
    intro r hr
    cases r with
    | none => rfl
    | some v => simp [validationOf] at hr
  have herr : (validateResolvedContent p fileName
      (resolveConflicts content (resolveConflictModel p fmt opts.strategy fileName))).2 =
      some "Invalid syntax after resolution" := by
    revert h3
    unfold validateResolvedContent
    split
    · exact hvalOf _
    · split
      · exact hvalOf _
      · intro h; simp at h
  simp [resolveFileModel, h1, hlen, h3, herr]

/-
Marker-line predicates are pairwise disjoint: each forces a distinct value
of the line's first eight characters.
-/

theorem take8_of_start (l : String) (h : isStartLine l = true) :
    l.data.take 8 = "<<<<<<< ".data := by
  simp only [isStartLine, Bool.and_eq_true, decide_eq_true_eq] at h
  rw [show ("<<<<<<< ".data) = ['<','<','<','<','<','<','<',' '] from rfl]
  exact h.1.1

theorem take8_of_base (l : String) (h : isBaseLine l = true) :
    l.data.take 8 = "||||||| ".data := by
  simp only [isBaseLine, Bool.and_eq_true, decide_eq_true_eq] at h
  rw [show ("||||||| ".data) = ['|','|','|','|','|','|','|',' '] from rfl]
  exact h.1.1

theorem take8_of_end (l : String) (h : isEndLine l = true) :
    l.data.take 8 = ">>>>>>> ".data := by
  simp only [isEndLine, Bool.and_eq_true, decide_eq_true_eq] at h
  rw [show (">>>>>>> ".data) = ['>','>','>','>','>','>','>',' '] from rfl]
  exact h.1.1

theorem take8_of_middle (l : String) (h : isMiddleLine l = true) :
    l.data.take 8 = "=======".data := by
  simp only [isMiddleLine, decide_eq_true_eq] at h
  rw [h]
  rfl

theorem start_not_middle (l : String) (h : isStartLine l = true) :
    isMiddleLine l = false := by
  cases hm : isMiddleLine l with
  | false => rfl
  | true =>
    have h1 := take8_of_start l h
    have h2 := take8_of_middle l hm
    rw [h1] at h2
    exact absurd h2 (by decide)

theorem start_not_end (l : String) (h : isStartLine l = true) :
    isEndLine l = false := by
  cases hm : isEndLine l with
  | false => rfl
  | true =>
    have h1 := take8_of_start l h
    have h2 := take8_of_end l hm
    rw [h1] at h2
    exact absurd h2 (by decide)

theorem middle_not_start (l : String) (h : isMiddleLine l = true) :
    isStartLine l = false := by
  cases hm : isStartLine l with
  | false => rfl
  | true => rw [start_not_middle l hm] at h; exact absurd h (by decide)

theorem middle_not_end (l : String) (h : isMiddleLine l = true) :
    isEndLine l = false := by
  cases hm : isEndLine l with
  | false => rfl
  | true =>
    have h1 := take8_of_middle l h
    have h2 := take8_of_end l hm
    rw [h1] at h2
    exact absurd h2 (by decide)

theorem end_not_start (l : String) (h : isEndLine l = true) :
    isStartLine l = false := by
  cases hm : isStartLine l with
  | false => rfl
  | true => rw [start_not_end l hm] at h; exact absurd h (by decide)

theorem end_not_middle (l : String) (h : isEndLine l = true) :
    isMiddleLine l = false := by
  cases hm : isMiddleLine l with
  | false => rfl
  | true => rw [middle_not_end l hm] at h; exact absurd h (by decide)

theorem base_not_middle (l : String) (h : isBaseLine l = true) :
    isMiddleLine l = false := by
  cases hm : isMiddleLine l with
  | false => rfl
  | true =>
    have h1 := take8_of_base l h
    have h2 := take8_of_middle l hm
    rw [h1] at h2
    exact absurd h2 (by decide)

theorem base_not_end (l : String) (h : isBaseLine l = true) :
    isEndLine l = false := by
  cases hm : isEndLine l with
  | false => rfl
  | true =>
    have h1 := take8_of_base l h
    have h2 := take8_of_end l hm
    rw [h1] at h2
    exact absurd h2 (by decide)

/-- The marker-counting loop of `hasConflictMarkers`, characterised from an
arbitrary starting state. -/
theorem hcm_fold (ls : List String) : ∀ (hs hm he : Bool) (sc ec : Nat),
    ls.foldl hcmStep (hs, hm, he, sc, ec) =
      (hs || ls.any isStartLine, hm || ls.any isMiddleLine, he || ls.any isEndLine,
       sc + ls.countP isStartLine, ec + ls.countP isEndLine) := by
  induction ls with
  | nil => intro hs hm he sc ec; simp
  | cons l rest ih =>
    intro hs hm he sc ec
    simp only [List.foldl_cons]
    by_cases h1 : isStartLine l = true
    · have h2 := start_not_middle l h1
      have h3 := start_not_end l h1
      rw [show hcmStep (hs, hm, he, sc, ec) l = (true, hm, he, sc + 1, ec) by
        simp [hcmStep, h1]]
      rw [ih]
      simp [h1, h2, h3, List.any_cons, List.countP_cons, Nat.add_assoc,
        Nat.add_comm, Nat.add_left_comm]
    · have h1' : isStartLine l = false := by simp at h1; exact h1
      by_cases h2 : isMiddleLine l = true
      · have h3 := middle_not_end l h2
        rw [show hcmStep (hs, hm, he, sc, ec) l = (hs, true, he, sc, ec) by
          simp [hcmStep, h1', h2]]
        rw [ih]
        simp [h1', h2, h3, List.any_cons, List.countP_cons]
      · have h2' : isMiddleLine l = false := by simp at h2; exact h2
        by_cases h3 : isEndLine l = true
        · rw [show hcmStep (hs, hm, he, sc, ec) l = (hs, hm, true, sc, ec + 1) by
            simp [hcmStep, h1', h2', h3]]
          rw [ih]
          simp [h1', h2', h3, List.any_cons, List.countP_cons, Nat.add_assoc,
            Nat.add_comm, Nat.add_left_comm]
        · have h3' : isEndLine l = false := by simp at h3; exact h3
          rw [show hcmStep (hs, hm, he, sc, ec) l = (hs, hm, he, sc, ec) by
            simp [hcmStep, h1', h2', h3']]
          rw [ih]
          simp [h1', h2', h3', List.any_cons, List.countP_cons]

/-- Claim C5: `hasConflictMarkers` (parser variant P1, the authoritative
anchored detector) returns `true` iff the text has at least one whole-line
start marker, one whole-line middle marker and one whole-line end marker,
with equally many start-marker and end-marker lines; in particular one
start marker and zero end markers yield `false`. -/
theorem hasConflictMarkers_iff (content : String) :
    (hasConflictMarkers content = true ↔
      ((∃ l ∈ splitLines content, isStartLine l = true) ∧
       (∃ l ∈ splitLines content, isMiddleLine l = true) ∧
       (∃ l ∈ splitLines content, isEndLine l = true) ∧
       (splitLines content).countP isStartLine = (splitLines content).countP isEndLine)) ∧
    ((splitLines content).countP isStartLine = 1 →
     (splitLines content).countP isEndLine = 0 →
     hasConflictMarkers content = false) := by
  have hunf : hasConflictMarkers content =
      ((splitLines content).any isStartLine && (splitLines content).any isMiddleLine &&
       (splitLines content).any isEndLine &&
       decide ((splitLines content).countP isStartLine =
               (splitLines content).countP isEndLine)) := by
    unfold hasConflictMarkers
    rw [hcm_fold]
    simp
  constructor
  · rw [hunf]
    simp [List.any_eq_true]
    tauto
  · intro h1 h2
    rw [hunf, h1, h2]
    simp

theorem hasConflictMarkers_iff_witness :
    hasConflictMarkers "<<<<<<< a" = false ∧
    hasConflictMarkers ("x\n<<<<<<< HEAD\nours\n=======\ntheirs\n>>>>>>> branch") = true :=
  ⟨(hasConflictMarkers_iff "<<<<<<< a").2 (by decide) (by decide),
   (hasConflictMarkers_iff ("x\n<<<<<<< HEAD\nours\n=======\ntheirs\n>>>>>>> branch")).1.mpr
     (by refine ⟨⟨"<<<<<<< HEAD", ?_, by decide⟩, ⟨"=======", ?_, by decide⟩,
           ⟨">>>>>>> branch", ?_, by decide⟩, by decide⟩ <;> decide)⟩

theorem resolve_validation_atomic_witness :
    resolveFileModel (fun _ => none) (fun _ => "") ⟨.ours, false, false, false⟩
        "meta.json" ("<<<<<<< a\nx\n=======\ny\n>>>>>>> b") =
      (⟨false, 0, some "Invalid syntax after resolution", none⟩, none, none) := by
  have h := resolve_validation_atomic (fun _ => none) (fun _ => "")
    ⟨.ours, false, false, false⟩ "meta.json" ("<<<<<<< a\nx\n=======\ny\n>>>>>>> b")
    rfl (by decide) rfl
  simpa using h

/-
Characterisation of the marker-search loop `scanSec`.
-/

/-- When the search reports an end index, it is the first end-marker line at
or after the search start. -/
theorem scanSec_end_facts (rest : List String) : ∀ (i : Nat) (mid bas m b : Option Nat)
    (e : Nat), scanSec rest i mid bas = (m, b, some e) →
    i ≤ e ∧ e - i < rest.length ∧
    (∃ l, rest.get? (e - i) = some l ∧ isEndLine l = true) ∧
    (∀ j, i ≤ j → j < e → ∀ l, rest.get? (j - i) = some l → isEndLine l = false) := by
  induction rest with
  | nil =>
    intro i mid bas m b e h
    simp [scanSec] at h
  | cons l rest ih =>
    intro i mid bas m b e h
    simp only [scanSec] at h
    by_cases hc1 : (isMiddleLine l && mid.isNone) = true
    · rw [if_pos hc1] at h
      obtain ⟨h1, h2, h3, h4⟩ := ih (i + 1) (some i) bas m b e h
      have hmid : isMiddleLine l = true := (Bool.and_eq_true ..).mp hc1 |>.1
      refine ⟨by omega, by simp; omega, ?_, ?_⟩
      · obtain ⟨l', hl', he'⟩ := h3
        refine ⟨l', ?_, he'⟩
        rw [show e - i = (e - (i + 1)) + 1 by omega]
        simpa using hl'
      · intro j hj1 hj2 l' hl'
        rcases Nat.eq_or_lt_of_le hj1 with heq | hlt
        · subst heq
          simp at hl'
          subst hl'
          exact middle_not_end _ hmid
        · have := h4 j hlt hj2 l'
          rw [show j - i = (j - (i + 1)) + 1 by omega] at hl'
          simp at hl'
          exact this (by simpa using hl')
    · rw [if_neg hc1] at h
      by_cases hc2 : (isBaseLine l && bas.isNone) = true
      · rw [if_pos hc2] at h
        obtain ⟨h1, h2, h3, h4⟩ := ih (i + 1) mid (some i) m b e h
        have hbas : isBaseLine l = true := (Bool.and_eq_true ..).mp hc2 |>.1
        refine ⟨by omega, by simp; omega, ?_, ?_⟩
        · obtain ⟨l', hl', he'⟩ := h3
          refine ⟨l', ?_, he'⟩
          rw [show e - i = (e - (i + 1)) + 1 by omega]
          simpa using hl'
        · intro j hj1 hj2 l' hl'
          rcases Nat.eq_or_lt_of_le hj1 with heq | hlt
          · subst heq
            simp at hl'
            subst hl'
            exact base_not_end _ hbas
          · have := h4 j hlt hj2 l'
            rw [show j - i = (j - (i + 1)) + 1 by omega] at hl'
            simp at hl'
            exact this (by simpa using hl')
      · rw [if_neg hc2] at h
        by_cases hc3 : isEndLine l = true
        · rw [if_pos hc3] at h
          have he0 : some i = some e := congrArg (fun t => t.2.2) h
          have he' : e = i := by injection he0 with h'; exact h'.symm
          subst he'
          refine ⟨le_refl _, by simp, ⟨l, by simp, hc3⟩, ?_⟩
          intro j hj1 hj2 l' _
          omega
        · rw [if_neg hc3] at h
          obtain ⟨h1, h2, h3, h4⟩ := ih (i + 1) mid bas m b e h
          have hne : isEndLine l = false := by
            cases hx : isEndLine l
            · rfl
            · exact absurd hx hc3
          refine ⟨by omega, by simp; omega, ?_, ?_⟩
          · obtain ⟨l', hl', he'⟩ := h3
            refine ⟨l', ?_, he'⟩
            rw [show e - i = (e - (i + 1)) + 1 by omega]
            simpa using hl'
          · intro j hj1 hj2 l' hl'
            rcases Nat.eq_or_lt_of_le hj1 with heq | hlt
            · subst heq
              simp at hl'
              subst hl'
              exact hne
            · have := h4 j hlt hj2 l'
              rw [show j - i = (j - (i + 1)) + 1 by omega] at hl'
              simp at hl'
              exact this (by simpa using hl')

/-- When the search reports no end index, no line of the searched suffix is
an end-marker line. -/
theorem scanSec_none_end (rest : List String) : ∀ (i : Nat) (mid bas m b : Option Nat),
    scanSec rest i mid bas = (m, b, none) →
    ∀ j l, rest.get? j = some l → isEndLine l = false := by
  induction rest with
  | nil => intro i mid bas m b _ j l hl; simp at hl
  | cons l0 rest ih =>
    intro i mid bas m b h j l hl
    simp only [scanSec] at h
    by_cases hc1 : (isMiddleLine l0 && mid.isNone) = true
    · rw [if_pos hc1] at h
      cases j with
      | zero =>
        simp at hl; subst hl
        exact middle_not_end _ ((Bool.and_eq_true ..).mp hc1 |>.1)
      | succ j' => exact ih _ _ _ _ _ h j' l (by simpa using hl)
    · rw [if_neg hc1] at h
      by_cases hc2 : (isBaseLine l0 && bas.isNone) = true
      · rw [if_pos hc2] at h
        cases j with
        | zero =>
          simp at hl; subst hl
          exact base_not_end _ ((Bool.and_eq_true ..).mp hc2 |>.1)
        | succ j' => exact ih _ _ _ _ _ h j' l (by simpa using hl)
      · rw [if_neg hc2] at h
        by_cases hc3 : isEndLine l0 = true
        · rw [if_pos hc3] at h
          simp at h
        · rw [if_neg hc3] at h
          cases j with
          | zero =>
            simp at hl; subst hl
            cases hx : isEndLine l0
            · rfl
            · exact absurd hx hc3
          | succ j' => exact ih _ _ _ _ _ h j' l (by simpa using hl)

/-- A recorded middle index is never overwritten. -/
theorem scanSec_mid_some (rest : List String) : ∀ (i m0 : Nat) (bas : Option Nat),
    (scanSec rest i (some m0) bas).1 = some m0 := by
  induction rest with
  | nil => intro i m0 bas; rfl
  | cons l rest ih =>
    intro i m0 bas
    simp only [scanSec]
    have hc1 : (isMiddleLine l && (some m0 : Option Nat).isNone) = false := by
      simp
    rw [hc1]
    simp only [Bool.false_eq_true, if_false]
    by_cases hc2 : (isBaseLine l && bas.isNone) = true
    · rw [if_pos hc2]; exact ih _ _ _
    · rw [if_neg hc2]
      by_cases hc3 : isEndLine l = true
      · rw [if_pos hc3]
      · rw [if_neg hc3]; exact ih _ _ _

/-- A middle index reported by a search that started with none recorded is
the first middle-marker line at or after the start, and precedes any
reported end index. -/
theorem scanSec_mid_found (rest : List String) : ∀ (i : Nat) (bas b : Option Nat)
    (m : Nat) (eo : Option Nat),
    scanSec rest i none bas = (some m, b, eo) →
    i ≤ m ∧ (∃ l, rest.get? (m - i) = some l ∧ isMiddleLine l = true) ∧
    (∀ e, eo = some e → m < e) := by
  induction rest with
  | nil =>
    intro i bas b m eo h
    simp [scanSec] at h
  | cons l rest ih =>
    intro i bas b m eo h
    simp only [scanSec] at h
    by_cases hc1 : (isMiddleLine l && (none : Option Nat).isNone) = true
    · rw [if_pos hc1] at h
      have h1 := scanSec_mid_some rest (i + 1) i bas
      rw [h] at h1
      have hm : m = i := by simpa using h1
      have hmid : isMiddleLine l = true := (Bool.and_eq_true ..).mp hc1 |>.1
      refine ⟨by omega, ⟨l, by simp [hm], hmid⟩, ?_⟩
      intro e he
      subst he
      obtain ⟨h2, _, _, _⟩ := scanSec_end_facts rest (i + 1) (some i) bas (some m) b e h
      omega
    · rw [if_neg hc1] at h
      by_cases hc2 : (isBaseLine l && bas.isNone) = true
      · rw [if_pos hc2] at h
        obtain ⟨h1, h2, h3⟩ := ih (i + 1) (some i) b m eo h
        refine ⟨by omega, ?_, h3⟩
        obtain ⟨l', hl', hm'⟩ := h2
        refine ⟨l', ?_, hm'⟩
        rw [show m - i = (m - (i + 1)) + 1 by omega]
        simpa using hl'
      · rw [if_neg hc2] at h
        by_cases hc3 : isEndLine l = true
        · rw [if_pos hc3] at h
          simp at h
        · rw [if_neg hc3] at h
          obtain ⟨h1, h2, h3⟩ := ih (i + 1) bas b m eo h
          refine ⟨by omega, ?_, h3⟩
          obtain ⟨l', hl', hm'⟩ := h2
          refine ⟨l', ?_, hm'⟩
          rw [show m - i = (m - (i + 1)) + 1 by omega]
          simpa using hl'

/-- When the search never records a middle index, no line at or after the
start and before the reported end (if any) is a middle-marker line. -/
theorem scanSec_mid_none (rest : List String) : ∀ (i : Nat) (bas b eo : Option Nat),
    scanSec rest i none bas = (none, b, eo) →
    ∀ j l, i ≤ j → (∀ e, eo = some e → j < e) → rest.get? (j - i) = some l →
      isMiddleLine l = false := by
  induction rest with
  | nil => intro i bas b eo _ j l _ _ hl; simp at hl
  | cons l0 rest ih =>
    intro i bas b eo h j l hj hje hl
    simp only [scanSec] at h
    by_cases hc1 : (isMiddleLine l0 && (none : Option Nat).isNone) = true
    · rw [if_pos hc1] at h
      have h1 := scanSec_mid_some rest (i + 1) i bas
      rw [h] at h1
      simp at h1
    · rw [if_neg hc1] at h
      have hml0 : isMiddleLine l0 = false := by
        cases hx : isMiddleLine l0
        · rfl
        · exact absurd (by simp [hx]) hc1
      by_cases hc2 : (isBaseLine l0 && bas.isNone) = true
      · rw [if_pos hc2] at h
        rcases Nat.eq_or_lt_of_le hj with heq | hlt
        · subst heq
          simp at hl; subst hl
          exact hml0
        · have := ih (i + 1) (some i) b eo h j l hlt hje
          rw [show j - i = (j - (i + 1)) + 1 by omega] at hl
          simp at hl
          exact this (by simpa using hl)
      · rw [if_neg hc2] at h
        by_cases hc3 : isEndLine l0 = true
        · rw [if_pos hc3] at h
          have heo : eo = some i := by
            have := congrArg (fun t => t.2.2) h
            simpa using this.symm
          have := hje i heo
          omega
        · rw [if_neg hc3] at h
          rcases Nat.eq_or_lt_of_le hj with heq | hlt
          · subst heq
            simp at hl; subst hl
            exact hml0
          · have := ih (i + 1) bas b eo h j l hlt hje
            rw [show j - i = (j - (i + 1)) + 1 by omega] at hl
            simp at hl
            exact this (by simpa using hl)

/-
Lifting the `scanSec` facts through `parseConflictSection` and the
`parseConflicts` scanning loop `goParse`.
-/

theorem parseConflictSection_some (lines : List String) (start : Nat) (c : ConflictSection)
    (h : parseConflictSection lines start = some c) :
    c.startLine = start ∧ start < c.endLine ∧ c.endLine < lines.length ∧
    (∃ l, lines.get? c.endLine = some l ∧ isEndLine l = true) ∧
    (∀ j, start < j → j < c.endLine → ∀ l, lines.get? j = some l → isEndLine l = false) ∧
    (∃ m lm, start < m ∧ m < c.endLine ∧ lines.get? m = some lm ∧
      isMiddleLine lm = true) := by
  unfold parseConflictSection at h
  set rest := lines.drop (start + 1) with hrest
  cases hscan : scanSec rest (start + 1) none none with
  | mk mo rst =>
    obtain ⟨bo, eo⟩ := rst
    rw [hscan] at h
    cases mo with
    | none =>
      exfalso
      cases eo <;> simp at h
    | some mi =>
      cases eo with
      | none => simp at h
      | some e =>
        simp only [Option.some.injEq] at h
        have hc : c = { ours := sliceJoin lines (start + 1) (bo.getD mi)
                      , theirs := sliceJoin lines (mi + 1) e
                      , base := bo.map (fun b => sliceJoin lines (b + 1) mi)
                      , startLine := start, endLine := e } := h.symm
        obtain ⟨h1, h2, h3, h4⟩ :=
          scanSec_end_facts rest (start + 1) none none (some mi) bo e hscan
        obtain ⟨hm1, hm2, hm3⟩ :=
          scanSec_mid_found rest (start + 1) none bo mi (some e) hscan
        have hrlen : rest.length = lines.length - (start + 1) := by
          rw [hrest]; exact List.length_drop _ _
        have hget : ∀ k, rest.get? k = lines.get? (start + 1 + k) := by
          intro k
          rw [hrest]
          exact List.get?_drop _ _ _
        have hcsl : c.startLine = start := by rw [hc]
        have hcel : c.endLine = e := by rw [hc]
        refine ⟨hcsl, ?_, ?_, ?_, ?_, ?_⟩
        · rw [hcel]; omega
        · rw [hcel]; omega
        · obtain ⟨l, hl, hle⟩ := h3
          rw [hget] at hl
          rw [hcel]
          exact ⟨l, by rw [show start + 1 + (e - (start + 1)) = e by omega] at hl; exact hl, hle⟩
        · intro j hj1 hj2 l hl
          rw [hcel] at hj2
          refine h4 j (by omega) hj2 l ?_
          rw [hget, show start + 1 + (j - (start + 1)) = j by omega]
          exact hl
        · obtain ⟨lm, hlm, hmm⟩ := hm2
          rw [hget, show start + 1 + (mi - (start + 1)) = mi by omega] at hlm
          rw [hcel]
          exact ⟨mi, lm, by omega, hm3 e rfl, hlm, hmm⟩

/-- The scanning loop only returns well-formed, ordered sections whose
start lines lie at or after the scan position. -/
theorem goParse_wf (lines : List String) : ∀ (fuel : Nat) (i : Nat),
    (∀ c ∈ goParse lines fuel i, i ≤ c.startLine ∧ SectionWF lines c) ∧
    List.Pairwise (fun a b => a.endLine < b.startLine) (goParse lines fuel i) := by
  intro fuel
  induction fuel with
  | zero => intro i; simp [goParse]
  | succ f ih =>
    intro i
    by_cases hlt : i < lines.length
    · rw [show goParse lines (f + 1) i =
          (if isStartLine (lines.get ⟨i, hlt⟩) then
            match parseConflictSection lines i with
            | some c => c :: goParse lines f (c.endLine + 1)
            | none => goParse lines f (i + 1)
          else goParse lines f (i + 1)) by
        simp [goParse, hlt]]
      by_cases hstart : isStartLine (lines.get ⟨i, hlt⟩) = true
      · rw [if_pos hstart]
        cases hsec : parseConflictSection lines i with
        | none =>
          refine ⟨fun c hc => ⟨by have := ((ih (i + 1)).1 c hc).1; omega,
            ((ih (i + 1)).1 c hc).2⟩, (ih (i + 1)).2⟩
        | some c =>
          obtain ⟨hsl, hse, hlen, hend, hnoend, hmid⟩ :=
            parseConflictSection_some lines i c hsec
          have hcwf : SectionWF lines c := by
            refine ⟨by omega, hlen, ?_, hend, ?_, by rw [hsl]; exact hmid⟩
            · rw [hsl]
              exact ⟨lines.get ⟨i, hlt⟩, List.get?_eq_get hlt, hstart⟩
            · intro j hj1 hj2 l hl
              rcases Nat.eq_or_lt_of_le hj1 with heq | hlt2
              · rw [hsl] at heq
                subst heq
                rw [List.get?_eq_get hlt] at hl
                cases hl
                exact start_not_end _ hstart
              · exact hnoend j (by omega) hj2 l hl
          constructor
          · intro c' hc'
            rcases List.mem_cons.mp hc' with rfl | hmem
            · exact ⟨by omega, hcwf⟩
            · have := (ih (c.endLine + 1)).1 c' hmem
              exact ⟨by omega, this.2⟩
          · rw [List.pairwise_cons]
            refine ⟨?_, (ih (c.endLine + 1)).2⟩
            intro b hb
            have := (ih (c.endLine + 1)).1 b hb
            omega
      · rw [if_neg hstart]
        refine ⟨fun c hc => ⟨by have := ((ih (i + 1)).1 c hc).1; omega,
          ((ih (i + 1)).1 c hc).2⟩, (ih (i + 1)).2⟩
    · rw [show goParse lines (f + 1) i = [] by simp [goParse, hlt]]
      simp

/-- The scanning loop is insensitive to its iteration budget as long as the
budget covers the remaining lines. -/
theorem goParse_congr (lines : List String) : ∀ (f1 f2 i : Nat),
    lines.length - i ≤ f1 → lines.length - i ≤ f2 →
    goParse lines f1 i = goParse lines f2 i := by
  intro f1
  induction f1 with
  | zero =>
    intro f2 i h1 _
    have hge : ¬ i < lines.length := by omega
    cases f2 with
    | zero => rfl
    | succ g => simp [goParse, hge]
  | succ f ih =>
    intro f2 i h1 h2
    cases f2 with
    | zero =>
      have hge : ¬ i < lines.length := by omega
      simp [goParse, hge]
    | succ g =>
      by_cases hlt : i < lines.length
      · simp only [goParse, dif_pos hlt]
        by_cases hstart : isStartLine (lines.get ⟨i, hlt⟩) = true
        · rw [if_pos hstart, if_pos hstart]
          cases hsec : parseConflictSection lines i with
          | none => rw [ih g (i + 1) (by omega) (by omega)]
          | some c =>
            obtain ⟨hsl, hse, hlen, _, _, _⟩ :=
              parseConflictSection_some lines i c hsec
            simp only [ih g (c.endLine + 1) (by omega) (by omega)]
        · rw [if_neg hstart, if_neg hstart, ih g (i + 1) (by omega) (by omega)]
      · simp [goParse, hlt]

/-- `parseConflictSection` returns `null` exactly when no valid
configuration — a middle-marker line strictly after the start, followed by
a first end-marker line in bounds — exists after the start index. -/
theorem parseConflictSection_none_iff (lines : List String) (i : Nat) :
    parseConflictSection lines i = none ↔
      ¬ ∃ m e, i < m ∧ m < e ∧ e < lines.length ∧
        (∃ lm, lines.get? m = some lm ∧ isMiddleLine lm = true) ∧
        (∃ le, lines.get? e = some le ∧ isEndLine le = true) ∧
        (∀ j, i < j → j < e → ∀ l, lines.get? j = some l → isEndLine l = false) := by
  constructor
  · intro hnone
    rintro ⟨m, e, hm, hme, helen, ⟨lm, hlm, hmm⟩, ⟨le, hle, hee⟩, hnoend⟩
    unfold parseConflictSection at hnone
    set rest := lines.drop (i + 1) with hrest
    have hget : ∀ k, rest.get? k = lines.get? (i + 1 + k) := fun k => by
      rw [hrest]; exact List.get?_drop _ _ _
    cases hscan : scanSec rest (i + 1) none none with
    | mk mo rst =>
      obtain ⟨bo, eo⟩ := rst
      rw [hscan] at hnone
      cases mo with
      | some mi =>
        cases eo with
        | some e0 => simp at hnone
        | none =>
          have hre : rest.get? (e - (i + 1)) = some le := by
            rw [hget, show i + 1 + (e - (i + 1)) = e by omega]
            exact hle
          have := scanSec_none_end rest (i + 1) none none (some mi) bo hscan
            (e - (i + 1)) le hre
          rw [this] at hee
          exact absurd hee (by simp)
      | none =>
        cases eo with
        | none =>
          have hre : rest.get? (e - (i + 1)) = some le := by
            rw [hget, show i + 1 + (e - (i + 1)) = e by omega]
            exact hle
          have := scanSec_none_end rest (i + 1) none none none bo hscan
            (e - (i + 1)) le hre
          rw [this] at hee
          exact absurd hee (by simp)
        | some e0 =>
          obtain ⟨h1, h2, h3, h4⟩ :=
            scanSec_end_facts rest (i + 1) none none none bo e0 hscan
          have he0 : e0 = e := by
            rcases lt_trichotomy e0 e with hlt | heq | hgt
            · obtain ⟨l0, hl0, hle0⟩ := h3
              rw [hget, show i + 1 + (e0 - (i + 1)) = e0 by omega] at hl0
              have := hnoend e0 (by omega) hlt l0 hl0
              rw [this] at hle0
              exact absurd hle0 (by simp)
            · exact heq
            · have := h4 e (by omega) hgt le
                (by rw [hget, show i + 1 + (e - (i + 1)) = e by omega]; exact hle)
              rw [this] at hee
              exact absurd hee (by simp)
          subst he0
          have := scanSec_mid_none rest (i + 1) none bo (some e0) hscan m lm
            (by omega) (fun e' he' => by injection he' with h'; omega)
            (by rw [hget, show i + 1 + (m - (i + 1)) = m by omega]; exact hlm)
          rw [this] at hmm
          exact absurd hmm (by simp)
  · intro hncfg
    cases hsec : parseConflictSection lines i with
    | none => rfl
    | some c =>
      exfalso
      obtain ⟨hsl, hse, hlen, hend, hnoend, ⟨m, lm, hm1, hm2, hlm, hmm⟩⟩ :=
        parseConflictSection_some lines i c hsec
      exact hncfg ⟨m, c.endLine, hm1, hm2, hlen, ⟨lm, hlm, hmm⟩, hend, hnoend⟩

/-- A position whose candidate section is discarded costs the scan exactly
one line: scanning resumes at the next line, consuming nothing. -/
theorem goParse_skip_none (lines : List String) (fuel i : Nat)
    (hfuel : lines.length - i ≤ fuel)
    (hnone : parseConflictSection lines i = none) :
    goParse lines fuel i = goParse lines fuel (i + 1) := by
  cases fuel with
  | zero => rfl
  | succ f =>
    by_cases hlt : i < lines.length
    · rw [show goParse lines (f + 1) i =
          (if isStartLine (lines.get ⟨i, hlt⟩) then
            match parseConflictSection lines i with
            | some c => c :: goParse lines f (c.endLine + 1)
            | none => goParse lines f (i + 1)
          else goParse lines f (i + 1)) by
        simp [goParse, hlt]]
      by_cases hstart : isStartLine (lines.get ⟨i, hlt⟩) = true
      · rw [if_pos hstart, hnone]
        exact goParse_congr lines f (f + 1) (i + 1) (by omega) (by omega)
      · rw [if_neg hstart]
        exact goParse_congr lines f (f + 1) (i + 1) (by omega) (by omega)
    · rw [show goParse lines (f + 1) i = [] by simp [goParse, hlt],
          show goParse lines (f + 1) (i + 1) = [] by
            simp [goParse, show ¬ i + 1 < lines.length by omega]]

/-- Claim C3 (amended): `parseConflicts` never throws (it is a total
function by construction); a candidate section is discarded — not returned
as a conflict — exactly when its middle marker or a subsequent end marker
is missing before end-of-file (or the first end marker precedes every
middle marker), and a discarded candidate consumes nothing: scanning
resumes at the line after the start marker.  A nested start marker does
*not* terminate the search, so a candidate may consume lines past a nested
start marker (see the counterexample). -/
theorem parseConflicts_discard_semantics :
    (∀ (lines : List String) (fuel i : Nat), lines.length - i ≤ fuel →
      parseConflictSection lines i = none →
      goParse lines fuel i = goParse lines fuel (i + 1)) ∧
    (∀ (lines : List String) (i : Nat),
      parseConflictSection lines i = none ↔
        ¬ ∃ m e, i < m ∧ m < e ∧ e < lines.length ∧
          (∃ lm, lines.get? m = some lm ∧ isMiddleLine lm = true) ∧
          (∃ le, lines.get? e = some le ∧ isEndLine le = true) ∧
          (∀ j, i < j → j < e → ∀ l, lines.get? j = some l → isEndLine l = false)) :=
  ⟨fun lines fuel i h1 h2 => goParse_skip_none lines fuel i h1 h2,
   fun lines i => parseConflictSection_none_iff lines i⟩

theorem parseConflicts_discard_semantics_witness :
    goParse (splitLines "<<<<<<< a\nx") 2 0 = goParse (splitLines "<<<<<<< a\nx") 2 1 ∧
    ¬ ∃ m e, 0 < m ∧ m < e ∧ e < (splitLines "<<<<<<< a").length ∧
      (∃ lm, (splitLines "<<<<<<< a").get? m = some lm ∧ isMiddleLine lm = true) ∧
      (∃ le, (splitLines "<<<<<<< a").get? e = some le ∧ isEndLine le = true) ∧
      (∀ j, 0 < j → j < e → ∀ l, (splitLines "<<<<<<< a").get? j = some l →
        isEndLine l = false) :=
  ⟨parseConflicts_discard_semantics.1 (splitLines "<<<<<<< a\nx") 2 0 (by decide) rfl,
   (parseConflicts_discard_semantics.2 (splitLines "<<<<<<< a") 0).mp rfl⟩

/-- Claim C3, counterexample to the claim as stated: a candidate whose
middle marker is missing before a nested start marker is *not* discarded;
the parser keeps scanning past the nested start marker, finds the later
middle and end markers, and returns a single section that begins at the
outer start marker and has swallowed the nested start-marker line into its
`ours` text. -/
theorem parseConflicts_nested_start_consumed :
    parseConflicts "<<<<<<< a\n<<<<<<< b\n=======\n>>>>>>> c" =
      [{ ours := "<<<<<<< b", theirs := "", base := none, startLine := 0, endLine := 3 }] ∧
    isStartLine "<<<<<<< b" = true :=
  ⟨rfl, rfl⟩

/-- Claim C9 (amended): every section returned by `parseConflicts`
satisfies `startLine < endLine`, is bounded by the document, starts at a
start-marker line, ends at the only end-marker line of the section, and
contains at least one middle-marker line strictly inside (possibly more
than one — see the counterexample); the sections are pairwise
non-overlapping and in document order. -/
theorem parseConflicts_section_invariant (content : String) :
    (∀ c ∈ parseConflicts content, SectionWF (splitLines content) c) ∧
    List.Pairwise (fun a b => a.endLine < b.startLine) (parseConflicts content) := by
  have h := goParse_wf (splitLines content) (splitLines content).length 0
  exact ⟨fun c hc => (h.1 c hc).2, h.2⟩

theorem parseConflicts_section_invariant_witness :
    SectionWF (splitLines "x\n<<<<<<< H\no\n=======\nt\n>>>>>>> b")
      { ours := "o", theirs := "t", base := none, startLine := 1, endLine := 5 } :=
  (parseConflicts_section_invariant "x\n<<<<<<< H\no\n=======\nt\n>>>>>>> b").1 _ (by decide)

/-- Claim C9, counterexample to the claim as stated: a returned section can
contain two middle-marker lines; the second one is part of the `theirs`
text. -/
theorem parseConflicts_double_middle :
    parseConflicts "<<<<<<< a\n=======\n=======\n>>>>>>> b" =
      [{ ours := "", theirs := "=======", base := none, startLine := 0, endLine := 3 }] ∧
    (splitLines "<<<<<<< a\n=======\n=======\n>>>>>>> b").countP isMiddleLine = 2 :=
  ⟨rfl, by decide⟩

/-- The last-to-first splice loop, on ordered in-bounds sections, realises
the left-to-right description `expectedFrom`. -/
theorem applyRevList_eq (resolver : ConflictSection → String) (lines : List String) :
    ∀ (cs : List ConflictSection) (i0 : Nat),
      (∀ c ∈ cs, i0 ≤ c.startLine ∧ c.startLine < c.endLine ∧ c.endLine < lines.length) →
      List.Pairwise (fun a b => a.endLine < b.startLine) cs →
      applyRevList resolver lines cs = lines.take i0 ++ expectedFrom resolver lines i0 cs := by
  intro cs
  induction cs with
  | nil =>
    intro i0 _ _
    simp [applyRevList, expectedFrom]
  | cons c rest ih =>
    intro i0 hb hpw
    obtain ⟨hi0, hse, hel⟩ := hb c (List.mem_cons_self ..)
    rw [List.pairwise_cons] at hpw
    obtain ⟨hhead, hpwr⟩ := hpw
    have hbr : ∀ c' ∈ rest, c.endLine + 1 ≤ c'.startLine ∧ c'.startLine < c'.endLine ∧
        c'.endLine < lines.length := by
      intro c' hc'
      have h1 := hhead c' hc'
      have h2 := hb c' (List.mem_cons_of_mem _ hc')
      exact ⟨by omega, h2.2⟩
    have hX := ih (c.endLine + 1) hbr hpwr
    show (applyRevList resolver lines rest).take c.startLine ++
        splitLines (resolver c) ++ (applyRevList resolver lines rest).drop (c.endLine + 1) =
      lines.take i0 ++ expectedFrom resolver lines i0 (c :: rest)
    rw [hX]
    have hlenA : (lines.take (c.endLine + 1)).length = c.endLine + 1 := by
      rw [List.length_take]
      omega
    have htake : (lines.take (c.endLine + 1) ++
        expectedFrom resolver lines (c.endLine + 1) rest).take c.startLine =
        lines.take c.startLine := by
      rw [List.take_append_of_le_length (by omega), List.take_take]
      congr 1
      omega
    have hdrop : (lines.take (c.endLine + 1) ++
        expectedFrom resolver lines (c.endLine + 1) rest).drop (c.endLine + 1) =
        expectedFrom resolver lines (c.endLine + 1) rest := by
      have hdl := List.drop_left (lines.take (c.endLine + 1))
        (expectedFrom resolver lines (c.endLine + 1) rest)
      rw [hlenA] at hdl
      exact hdl
    rw [htake, hdrop]
    show lines.take c.startLine ++ splitLines (resolver c) ++
        expectedFrom resolver lines (c.endLine + 1) rest =
      lines.take i0 ++ ((lines.drop i0).take (c.startLine - i0) ++ splitLines (resolver c) ++
        expectedFrom resolver lines (c.endLine + 1) rest)
    have hsplit : lines.take i0 ++ (lines.drop i0).take (c.startLine - i0) =
        lines.take c.startLine := by
      rw [← List.take_add]
      congr 1
      omega
    rw [← hsplit]
    simp [List.append_assoc]

/-- Claim C8 (amended): `resolveConflicts` replaces exactly the lines
spanning `[startLine, endLine]` of each parsed section with the resolver's
output (split into lines), processing sections from the last to the first,
and preserves every other line of the document, as stated by the
left-to-right description `expectedFrom`; the output joins lines with
`"\n"`, so `\r\n` line endings are normalised to `\n` rather than
preserved byte-for-byte (see the counterexample). -/
theorem resolveConflicts_frame (content : String) (resolver : ConflictSection → String) :
    resolveConflicts content resolver =
      joinN (expectedFrom resolver (splitLines content) 0 (parseConflicts content)) := by
  unfold resolveConflicts
  congr 1
  have h := goParse_wf (splitLines content) (splitLines content).length 0
  have hb : ∀ c ∈ parseConflicts content, 0 ≤ c.startLine ∧ c.startLine < c.endLine ∧
      c.endLine < (splitLines content).length := by
    intro c hc
    have := (h.1 c hc).2
    exact ⟨Nat.zero_le _, this.1, this.2.1⟩
  have hpw : List.Pairwise (fun a b => a.endLine < b.startLine) (parseConflicts content) :=
    h.2
  rw [applyRevList_eq resolver (splitLines content) (parseConflicts content) 0 hb hpw]
  simp

/-- Claim C8, counterexample to the claim as stated: the exact line-ending
structure outside conflict sections is not preserved — a document with a
`\r\n` line ending and no conflicts at all comes back with the ending
rewritten to `\n`. -/
theorem resolveConflicts_crlf_normalised :
    resolveConflicts "a\r\nb" (fun _ => "X") = "a\nb" ∧ ("a\nb" : String) ≠ "a\r\nb" :=
  ⟨rfl, by decide⟩

/-
Infrastructure for the merge-heuristic claims: property reads on non-null
values, size bounds, and the characterisation of `deepMerge` on objects.
-/

theorem truthy_ne_null (v : JVal) (h : truthy v = true) : v ≠ JVal.null := by
  intro he
  subst he
  simp [truthy] at h

theorem jsGet_eq_jsProp (v : JVal) (k : String) (h : v ≠ JVal.null) :
    jsGet v k = .ok (jsProp v k) := by
  cases v with
  | null => exact absurd rfl h
  | bool b => rfl
  | num n => rfl
  | str s => rfl
  | arr vs => rfl
  | obj ps => rfl

theorem lookupObj_of_mem_nodup (ps : List (String × JVal)) (k : String) (v : JVal)
    (hnd : (ps.map Prod.fst).Nodup) (hm : (k, v) ∈ ps) : lookupObj ps k = some v := by
  induction ps with
  | nil => exact absurd hm (List.not_mem_nil _)
  | cons p rest ih =>
    obtain ⟨k0, v0⟩ := p
    simp only [List.map_cons, List.nodup_cons] at hnd
    rcases List.mem_cons.mp hm with heq | hmemr
    · have hkk : k = k0 := congrArg Prod.fst heq
      have hvv : v = v0 := congrArg Prod.snd heq
      subst hkk; subst hvv
      simp [lookupObj]
    · have hkne : k0 ≠ k := by
        intro hkeq
        exact hnd.1 (hkeq ▸ (List.mem_map.mpr ⟨(k, v), hmemr, rfl⟩))
      simp only [lookupObj, if_neg hkne]
      exact ih hnd.2 hmemr

theorem jsize_pos (v : JVal) : 1 ≤ jsize v := by
  cases v <;> simp [jsize]

theorem jsizeP_mem : ∀ (ps : List (String × JVal)) (k : String) (v : JVal),
    (k, v) ∈ ps → jsize v ≤ jsizeP ps := by
  intro ps
  induction ps with
  | nil => intro k v h; exact absurd h (List.not_mem_nil _)
  | cons p rest ih =>
    intro k v h
    rcases List.mem_cons.mp h with heq | hmemr
    · have : v = p.2 := congrArg Prod.snd heq
      subst this
      obtain ⟨a, b⟩ := p
      simp [jsizeP]
    · obtain ⟨a, b⟩ := p
      have := ih k v hmemr
      simp only [jsizeP]
      omega

theorem jsizeL_mem : ∀ (vs : List JVal) (v : JVal), v ∈ vs → jsize v ≤ jsizeL vs := by
  intro vs
  induction vs with
  | nil => intro v h; exact absurd h (List.not_mem_nil _)
  | cons w rest ih =>
    intro v h
    rcases List.mem_cons.mp h with heq | hmemr
    · subst heq; simp [jsizeL]
    · have := ih v hmemr
      simp only [jsizeL]
      omega

theorem foldlM_except_congr {α β : Type} (f g : β → α → Except Unit β) (l : List α) :
    ∀ (init : β), (∀ b a, a ∈ l → f b a = g b a) →
    l.foldlM f init = l.foldlM g init := by
  induction l with
  | nil => intro init _; rfl
  | cons x xs ih =>
    intro init h
    rw [List.foldlM_cons, List.foldlM_cons, h init x (List.mem_cons_self ..)]
    cases g init x with
    | error e => rfl
    | ok b' =>
      simp only [Bind.bind, Except.bind]
      exact ih b' (fun b a ha => h b a (List.mem_cons_of_mem _ ha))

theorem snd_mem_of_mem_enum : ∀ (l : List JVal) (n : Nat) (p : Nat × JVal),
    p ∈ l.enumFrom n → p.2 ∈ l := by
  intro l
  induction l with
  | nil => intro n p h; exact absurd h (List.not_mem_nil _)
  | cons x xs ih =>
    intro n p h
    rcases List.mem_cons.mp h with heq | hmemr
    · have : p.2 = x := congrArg Prod.snd heq
      rw [this]; exact List.mem_cons_self ..
    · exact List.mem_cons_of_mem _ (ih (n + 1) p hmemr)

/-- `deepMergeGo` ignores its recursion budget as long as the budget covers
the source's size. -/
theorem deepMergeGo_congr (resolver : String → JVal → JVal → Except Unit JVal) :
    ∀ (f1 f2 : Nat) (tgt : Option JVal) (src : JVal),
      jsize src ≤ f1 → jsize src ≤ f2 →
      deepMergeGo resolver f1 tgt src = deepMergeGo resolver f2 tgt src := by
  intro f1
  induction f1 with
  | zero =>
    intro f2 tgt src h1 _
    have := jsize_pos src
    omega
  | succ f ih =>
    intro f2 tgt src h1 h2
    cases f2 with
    | zero =>
      have := jsize_pos src
      omega
    | succ g =>
      cases src with
      | null => rfl
      | bool b => rfl
      | num n => rfl
      | str s => rfl
      | arr elems =>
        have hsrc : jsize (JVal.arr elems) = 1 + jsizeL elems := rfl
        simp only [deepMergeGo]
        cases arraySpread tgt with
        | error e => rfl
        | ok init =>
          simp only [Bind.bind, Except.bind]
          congr 1
          apply foldlM_except_congr
          intro acc p hp
          have hmem : p.2 ∈ elems := snd_mem_of_mem_enum elems 0 p hp
          have hsz : jsize p.2 ≤ jsizeL elems := jsizeL_mem elems p.2 hmem
          cases hv : p.2 with
          | obj inner =>
            have hrw := ih g (acc.get? p.1) (JVal.obj inner)
              (by rw [← hv]; omega) (by rw [← hv]; omega)
            simp only [hrw]
          | null => rfl
          | bool b => rfl
          | num n => rfl
          | str s => rfl
          | arr ys => rfl
      | obj pairs =>
        have hsrc : jsize (JVal.obj pairs) = 1 + jsizeP pairs := rfl
        simp only [deepMergeGo]
        congr 1
        unfold foldAssignM
        apply foldlM_except_congr
        intro acc p hp
        have hsz : jsize p.2 ≤ jsizeP pairs := jsizeP_mem pairs p.1 p.2 hp
        unfold foldStepM
        cases hv : p.2 with
        | obj inner =>
          have hrw := ih g (lookupObj acc p.1) (JVal.obj inner)
            (by rw [← hv]; omega) (by rw [← hv]; omega)
          simp only [hrw]
        | null => rfl
        | bool b => rfl
        | num n => rfl
        | str s => rfl
        | arr ys => rfl

/-- Characterisation of a successful object-level `deepMerge`: keys absent
from the source keep the spread target's binding; an object-valued source
entry recurses into the target's binding at that key; any other source
entry either goes through the resolver (when the key is present) or is
assigned. -/
theorem deepMerge_obj_ok (resolver : String → JVal → JVal → Except Unit JVal)
    (tgt : Option JVal) (pairs : List (String × JVal)) (out : JVal)
    (hnd : (pairs.map Prod.fst).Nodup)
    (hok : deepMerge resolver tgt (.obj pairs) = .ok out) :
    ∃ final, out = .obj final ∧
    (∀ k, k ∉ pairs.map Prod.fst → lookupObj final k = lookupObj (spreadObj tgt) k) ∧
    (∀ k v, (k, v) ∈ pairs →
      (match v with
       | .obj inner =>
         ∃ sub, deepMerge resolver (lookupObj (spreadObj tgt) k) (.obj inner) = .ok sub ∧
           lookupObj final k = some sub
       | _ =>
         match lookupObj (spreadObj tgt) k with
         | some cur => ∃ r, resolver k cur v = .ok r ∧ lookupObj final k = some r
         | none => lookupObj final k = some v)) := by
  unfold deepMerge at hok
  rw [show jsize (JVal.obj pairs) = jsizeP pairs + 1 by simp [jsize]; omega] at hok
  simp only [deepMergeGo] at hok
  cases hfold : foldAssignM (fun k v cur =>
      match v with
      | .obj inner => (deepMergeGo resolver (jsizeP pairs) cur (.obj inner)).map some
      | v =>
        match cur with
        | some c => (resolver k c v).map some
        | none => .ok (some v)) (spreadObj tgt) pairs with
  | error e => rw [hfold] at hok; simp [Except.map] at hok
  | ok final =>
    rw [hfold] at hok
    simp only [Except.map] at hok
    refine ⟨final, by cases hok; rfl, ?_, ?_⟩
    all_goals
      obtain ⟨hout, hin⟩ := foldAssignM_ok _ pairs (spreadObj tgt) final hnd hfold
    · exact hout
    · intro k v hmem
      obtain ⟨r, hupd, hfin⟩ := hin k v hmem
      cases hv : v with
      | obj inner =>
        rw [hv] at hupd
        simp only [Except.map] at hupd
        cases hgo : deepMergeGo resolver (jsizeP pairs) (lookupObj (spreadObj tgt) k)
            (.obj inner) with
        | error e => rw [hgo] at hupd; simp at hupd
        | ok sub =>
          rw [hgo] at hupd
          simp only [Option.some.injEq] at hupd
          have hr : r = some sub := by
            injection hupd with h'
            exact h'.symm
          subst hr
          refine ⟨sub, ?_, hfin⟩
          unfold deepMerge
          rw [deepMergeGo_congr resolver (jsize (JVal.obj inner)) (jsizeP pairs) _ _
            (le_refl _) ?_]
          · exact hgo
          · have := jsizeP_mem pairs k v (hv ▸ hmem)
            rw [hv] at this
            exact this
      | null =>
        subst hv
        cases hcur : lookupObj (spreadObj tgt) k with
        | some c =>
          rw [hcur] at hupd
          simp only [Except.map] at hupd
          cases hres : resolver k c .null with
          | error e => rw [hres] at hupd; simp at hupd
          | ok r' =>
            rw [hres] at hupd
            simp only [Option.some.injEq] at hupd
            have hr : r = some r' := by injection hupd with h'; exact h'.symm
            subst hr
            exact ⟨r', hres, hfin⟩
        | none =>
          rw [hcur] at hupd
          have hr : r = some .null := by injection hupd with h'; exact h'.symm
          subst hr
          exact hfin
      | bool b =>
        subst hv
        cases hcur : lookupObj (spreadObj tgt) k with
        | some c =>
          rw [hcur] at hupd
          simp only [Except.map] at hupd
          cases hres : resolver k c (.bool b) with
          | error e => rw [hres] at hupd; simp at hupd
          | ok r' =>
            rw [hres] at hupd
            simp only [Option.some.injEq] at hupd
            have hr : r = some r' := by injection hupd with h'; exact h'.symm
            subst hr
            exact ⟨r', hres, hfin⟩
        | none =>
          rw [hcur] at hupd
          have hr : r = some (.bool b) := by injection hupd with h'; exact h'.symm
          subst hr
          exact hfin
      | num n =>
        subst hv
        cases hcur : lookupObj (spreadObj tgt) k with
        | some c =>
          rw [hcur] at hupd
          simp only [Except.map] at hupd
          cases hres : resolver k c (.num n) with
          | error e => rw [hres] at hupd; simp at hupd
          | ok r' =>
            rw [hres] at hupd
            simp only [Option.some.injEq] at hupd
            have hr : r = some r' := by injection hupd with h'; exact h'.symm
            subst hr
            exact ⟨r', hres, hfin⟩
        | none =>
          rw [hcur] at hupd
          have hr : r = some (.num n) := by injection hupd with h'; exact h'.symm
          subst hr
          exact hfin
      | str s =>
        subst hv
        cases hcur : lookupObj (spreadObj tgt) k with
        | some c =>
          rw [hcur] at hupd
          simp only [Except.map] at hupd
          cases hres : resolver k c (.str s) with
          | error e => rw [hres] at hupd; simp at hupd
          | ok r' =>
            rw [hres] at hupd
            simp only [Option.some.injEq] at hupd
            have hr : r = some r' := by injection hupd with h'; exact h'.symm
            subst hr
            exact ⟨r', hres, hfin⟩
        | none =>
          rw [hcur] at hupd
          have hr : r = some (.str s) := by injection hupd with h'; exact h'.symm
          subst hr
          exact hfin
      | arr ys =>
        subst hv
        cases hcur : lookupObj (spreadObj tgt) k with
        | some c =>
          rw [hcur] at hupd
          simp only [Except.map] at hupd
          cases hres : resolver k c (.arr ys) with
          | error e => rw [hres] at hupd; simp at hupd
          | ok r' =>
            rw [hres] at hupd
            simp only [Option.some.injEq] at hupd
            have hr : r = some r' := by injection hupd with h'; exact h'.symm
            subst hr
            exact ⟨r', hres, hfin⟩
        | none =>
          rw [hcur] at hupd
          have hr : r = some (.arr ys) := by injection hupd with h'; exact h'.symm
          subst hr
          exact hfin

/-
Evaluation lemmas for the variant-A resolver callbacks and the variant-B
scope decision.
-/

theorem metaResolverA_nonobj (k : String) (o v : JVal) (h : jsTypeofObj v = false) :
    metaResolverA k o v = .ok v := by
  simp only [metaResolverA, h, Bool.and_false, Bool.false_eq_true, if_false]
  rfl

theorem dictResolverA_nonobj (k : String) (o v : JVal) (h : jsTypeofObj v = false) :
    dictResolverA k o v = .ok v := by
  simp only [dictResolverA, h, Bool.and_false, Bool.false_eq_true, if_false]
  rfl

theorem scopeUpdB_skip (op : List (String × JVal)) (k : String) (tv : JVal)
    (c : Option JVal) (h : truthyOpt (lookupObj op k) = false) :
    scopeUpdB (.obj op) k tv c = .ok none := by
  unfold scopeUpdB
  rw [show jsGet (JVal.obj op) k = .ok (lookupObj op k) from rfl]
  simp only [Bind.bind, Except.bind]
  rw [if_neg (fun hh => by rw [h] at hh; exact Bool.false_ne_true hh)]
  rfl

theorem scopeUpdB_eval (op : List (String × JVal)) (k : String) (tv ov : JVal)
    (c : Option JVal) (hov : lookupObj op k = some ov) (htru : truthy ov = true)
    (htv : tv ≠ JVal.null) :
    scopeUpdB (.obj op) k tv c = .ok
      (if jsStrictNeq (jsProp tv "hash") (jsProp ov "hash") = true then
        (if (truthyOpt (jsProp tv "content") &&
            (!truthyOpt (jsProp ov "content") ||
             jsGT (jsLenOpt (jsProp tv "content")) (jsLenOpt (jsProp ov "content")))) = true
         then some tv else some ov)
       else none) := by
  have hovn : ov ≠ JVal.null := truthy_ne_null ov htru
  have htro : truthyOpt (some ov) = true := htru
  unfold scopeUpdB
  rw [show jsGet (JVal.obj op) k = .ok (lookupObj op k) from rfl, hov]
  simp only [Bind.bind, Except.bind]
  rw [if_pos htro]
  simp only [Option.getD]
  rw [jsGet_eq_jsProp tv "hash" htv]
  simp only [Bind.bind, Except.bind]
  rw [jsGet_eq_jsProp ov "hash" hovn]
  simp only [Bind.bind, Except.bind]
  by_cases h1 : jsStrictNeq (jsProp tv "hash") (jsProp ov "hash") = true
  · rw [if_pos h1, if_pos h1]
    rw [jsGet_eq_jsProp tv "content" htv]
    simp only [Bind.bind, Except.bind]
    by_cases h2 : truthyOpt (jsProp tv "content") = true
    · rw [if_pos h2]
      rw [jsGet_eq_jsProp ov "content" hovn]
      simp only [Bind.bind, Except.bind]
      by_cases h3 : (!truthyOpt (jsProp ov "content") ||
          jsGT (jsLenOpt (jsProp tv "content")) (jsLenOpt (jsProp ov "content"))) = true
      · rw [if_pos h3, if_pos (show (truthyOpt (jsProp tv "content") &&
            (!truthyOpt (jsProp ov "content") ||
             jsGT (jsLenOpt (jsProp tv "content")) (jsLenOpt (jsProp ov "content")))) = true
            by rw [h2, h3]; rfl)]
        rfl
      · have h3f : ¬ (truthyOpt (jsProp tv "content") &&
            (!truthyOpt (jsProp ov "content") ||
             jsGT (jsLenOpt (jsProp tv "content")) (jsLenOpt (jsProp ov "content")))) = true := by
          rw [h2, Bool.true_and]
          exact h3
        rw [if_neg h3, if_neg h3f]
        rfl
    · have h2f : truthyOpt (jsProp tv "content") = false := by
        cases hx : truthyOpt (jsProp tv "content") with
        | true => exact absurd hx h2
        | false => rfl
      have hcf : ¬ (truthyOpt (jsProp tv "content") &&
          (!truthyOpt (jsProp ov "content") ||
           jsGT (jsLenOpt (jsProp tv "content")) (jsLenOpt (jsProp ov "content")))) = true := by
        rw [h2f, Bool.false_and]
        exact Bool.false_ne_true
      rw [if_neg h2, if_neg hcf]
      rfl
  · rw [if_neg h1, if_neg h1]
    rfl

theorem mergeScopesBVal_eq (op tp : List (String × JVal)) :
    mergeScopesBVal (.obj op) (.obj tp) =
      foldAssignM (scopeUpdB (.obj op)) (objAssign op tp) tp := by
  unfold mergeScopesBVal
  rfl

/-- Claim C1 (amended).  Variant B (`smartResolveMeta`, lines 477-523):
keys on one side only are kept; for a scope key on both sides with a
truthy `ours` value, equal hashes keep the `theirs` value (it survives from
the object spread), and differing hashes prefer `theirs` exactly when its
`content` is truthy and `ours`' content is falsy or strictly shorter — in
particular, equal content lengths with differing hashes keep `ours`, not
`theirs`.  Variant A (`smartResolveMeta` via `deepMerge`, lines 130-174):
a scope key shared by both sides is merged field-by-field (object values
recurse), and a string-valued field coming from `theirs` always overwrites;
the merged scope is therefore generally neither whole side, rather than
the side with the longer content. -/
theorem metaSmartMerge_characterisation :
    (∀ (op tp final : List (String × JVal)),
      (tp.map Prod.fst).Nodup →
      mergeScopesBVal (.obj op) (.obj tp) = .ok final →
      (∀ k, k ∉ tp.map Prod.fst → lookupObj final k = lookupObj op k) ∧
      (∀ k tv, (k, tv) ∈ tp → truthyOpt (lookupObj op k) = false →
        lookupObj final k = some tv) ∧
      (∀ k tv ov, (k, tv) ∈ tp → lookupObj op k = some ov → truthy ov = true →
        tv ≠ JVal.null →
        lookupObj final k =
          (if jsStrictNeq (jsProp tv "hash") (jsProp ov "hash") = true then
            (if (truthyOpt (jsProp tv "content") &&
                (!truthyOpt (jsProp ov "content") ||
                 jsGT (jsLenOpt (jsProp tv "content"))
                   (jsLenOpt (jsProp ov "content")))) = true
             then some tv else some ov)
           else some tv))) ∧
    (∀ (op tp : List (String × JVal)) (out : JVal),
      (tp.map Prod.fst).Nodup →
      deepMerge metaResolverA (some (.obj op)) (.obj tp) = .ok out →
      ∃ final, out = .obj final ∧
        (∀ k, k ∉ tp.map Prod.fst → lookupObj final k = lookupObj op k) ∧
        (∀ k inner, (k, JVal.obj inner) ∈ tp →
          ∃ sub, deepMerge metaResolverA (lookupObj op k) (.obj inner) = .ok sub ∧
            lookupObj final k = some sub) ∧
        (∀ k s, (k, JVal.str s) ∈ tp → lookupObj final k = some (.str s))) := by
  constructor
  · intro op tp final hnd hok
    rw [mergeScopesBVal_eq] at hok
    obtain ⟨hout, hin⟩ := foldAssignM_ok _ tp (objAssign op tp) final hnd hok
    have hinit : ∀ k, lookupObj (objAssign op tp) k =
        (match lookupObj tp k with
         | some v => some v
         | none => lookupObj op k) := fun k => lookupObj_objAssign tp op k hnd
    refine ⟨?_, ?_, ?_⟩
    · intro k hk
      rw [hout k hk, hinit k, lookupObj_eq_none tp k hk]
    · intro k tv hmem hfal
      obtain ⟨r, hupd, hfin⟩ := hin k tv hmem
      rw [scopeUpdB_skip op k tv _ hfal] at hupd
      have hr : r = none := by injection hupd with h'; exact h'.symm
      subst hr
      rw [hfin, hinit k, lookupObj_of_mem_nodup tp k tv hnd hmem]
    · intro k tv ov hmem hov htru htv
      obtain ⟨r, hupd, hfin⟩ := hin k tv hmem
      rw [scopeUpdB_eval op k tv ov _ hov htru htv] at hupd
      by_cases h1 : jsStrictNeq (jsProp tv "hash") (jsProp ov "hash") = true
      · rw [if_pos h1] at hupd ⊢
        by_cases h2 : (truthyOpt (jsProp tv "content") &&
            (!truthyOpt (jsProp ov "content") ||
             jsGT (jsLenOpt (jsProp tv "content"))
               (jsLenOpt (jsProp ov "content")))) = true
        · rw [if_pos h2] at hupd ⊢
          have hr : r = some tv := by injection hupd with h'; exact h'.symm
          subst hr
          exact hfin
        · rw [if_neg h2] at hupd ⊢
          have hr : r = some ov := by injection hupd with h'; exact h'.symm
          subst hr
          exact hfin
      · rw [if_neg h1] at hupd ⊢
        have hr : r = none := by injection hupd with h'; exact h'.symm
        subst hr
        rw [hfin, hinit k, lookupObj_of_mem_nodup tp k tv hnd hmem]
  · intro op tp out hnd hok
    obtain ⟨final, hobj, hout, hin⟩ := deepMerge_obj_ok metaResolverA _ tp out hnd hok
    refine ⟨final, hobj, fun k hk => hout k hk, ?_, ?_⟩
    · intro k inner hmem
      have := hin k (JVal.obj inner) hmem
      simpa using this
    · intro k s hmem
      have h := hin k (JVal.str s) hmem
      simp only at h
      cases hcur : lookupObj (spreadObj (some (JVal.obj op))) k with
      | some cur =>
        rw [hcur] at h
        obtain ⟨r, hres, hfin⟩ := h
        rw [metaResolverA_nonobj k cur (.str s) rfl] at hres
        have hr : r = .str s := by injection hres with h'; exact h'.symm
        subst hr
        exact hfin
      | none =>
        rw [hcur] at h
        exact h

theorem metaSmartMerge_characterisation_witness :
    lookupObj [("A", JVal.obj [("hash", .str "h1"), ("content", .str "ab")])] "A" =
      some (JVal.obj [("hash", .str "h1"), ("content", .str "ab")]) := by
  have h := (metaSmartMerge_characterisation.1
    [("A", JVal.obj [("hash", .str "h1"), ("content", .str "ab")])]
    [("A", JVal.obj [("hash", .str "h2"), ("content", .str "xy")])]
    [("A", JVal.obj [("hash", .str "h1"), ("content", .str "ab")])]
    (by decide) rfl).2.2 "A"
    (JVal.obj [("hash", .str "h2"), ("content", .str "xy")])
    (JVal.obj [("hash", .str "h1"), ("content", .str "ab")])
    (List.mem_singleton_self _) rfl rfl (fun hh => JVal.noConfusion hh)
  rw [h]
  rfl

/-- Claim C1, counterexample to the claim as stated, at explicit inputs.
In variant B, a scope key present on both sides with equal content lengths
(`"ab"` vs `"xy"`) and differing hashes resolves to `ours`, not `theirs` as
the claim requires.  In variant A, with `ours` content strictly longer
(`"abc"` vs `"xy"`), the merged scope equals the field-wise `theirs`
overwrite — `theirs`' shorter content wins — not the side with the longer
content. -/
theorem metaSmartMerge_counterexample :
    mergeScopesBVal
        (.obj [("A", JVal.obj [("hash", .str "h1"), ("content", .str "ab")])])
        (.obj [("A", JVal.obj [("hash", .str "h2"), ("content", .str "xy")])]) =
      .ok [("A", JVal.obj [("hash", .str "h1"), ("content", .str "ab")])] ∧
    ("ab" : String).length = ("xy" : String).length ∧
    ("h1" : String) ≠ "h2" ∧
    deepMerge metaResolverA
        (some (.obj [("A", JVal.obj [("hash", .str "h1"), ("content", .str "abc")])]))
        (.obj [("A", JVal.obj [("hash", .str "h2"), ("content", .str "xy")])]) =
      .ok (.obj [("A", JVal.obj [("hash", .str "h2"), ("content", .str "xy")])]) ∧
    ("xy" : String).length < ("abc" : String).length :=
  ⟨rfl, rfl, by decide, rfl, by decide⟩

theorem mergeContentLoopC_eq (tpairs : List (String × JVal)) :
    ∀ ps : List (String × JVal),
      mergeContentLoopC (.obj ps) tpairs =
        (foldAssignM localeUpdC ps tpairs).map JVal.obj := by
  induction tpairs with
  | nil => intro ps; rfl
  | cons p rest ih =>
    intro ps
    have hstep : mergeContentLoopC (JVal.obj ps) (p :: rest) =
        Except.bind (if (!truthyOpt (lookupObj ps p.1) ||
            (truthy p.2 && !(jsTrim (jsToString p.2)).isEmpty)) = true
          then jsSetProp (JVal.obj ps) p.1 p.2 else pure (JVal.obj ps))
          (fun c => mergeContentLoopC c rest) := rfl
    have hfa : (foldAssignM localeUpdC ps (p :: rest)).map JVal.obj =
        Except.bind (foldStepM localeUpdC ps p)
          (fun acc => (foldAssignM localeUpdC acc rest).map JVal.obj) := by
      unfold foldAssignM
      rw [show List.foldlM (foldStepM localeUpdC) ps (p :: rest) =
          Bind.bind (foldStepM localeUpdC ps p)
            (fun acc => List.foldlM (foldStepM localeUpdC) acc rest) from rfl]
      cases foldStepM localeUpdC ps p <;> rfl
    rw [hstep, hfa, foldStepM_eq]
    by_cases hc : (!truthyOpt (lookupObj ps p.1) ||
        (truthy p.2 && !(jsTrim (jsToString p.2)).isEmpty)) = true
    · rw [if_pos hc]
      have hupd : localeUpdC p.1 p.2 (lookupObj ps p.1) = .ok (some p.2) := by
        unfold localeUpdC
        rw [if_pos hc]
        rfl
      rw [hupd]
      rw [show jsSetProp (JVal.obj ps) p.1 p.2 =
          Except.ok (JVal.obj (setKey ps p.1 p.2)) from rfl]
      rw [show Except.bind (Except.ok (JVal.obj (setKey ps p.1 p.2)))
            (fun c => mergeContentLoopC c rest) =
          mergeContentLoopC (JVal.obj (setKey ps p.1 p.2)) rest from rfl]
      exact ih (setKey ps p.1 p.2)
    · rw [if_neg hc]
      have hupd : localeUpdC p.1 p.2 (lookupObj ps p.1) = .ok none := by
        unfold localeUpdC
        rw [if_neg hc]
        rfl
      rw [hupd]
      rw [show Except.bind (pure (JVal.obj ps) : Except Unit JVal)
            (fun c => mergeContentLoopC c rest) =
          mergeContentLoopC (JVal.obj ps) rest from rfl]
      exact ih ps

/-- Claim C2 (amended).  Variant C (`mergeDictionary` locale loop, lines
1014-1033): a locale present only in `theirs` is added; for a locale
present in both, `theirs` wins whenever its translation is truthy with a
nonempty trimmed string form (no length comparison at all), and only a
falsy/all-whitespace `theirs` translation lets `ours` survive.  Variant A
(`smartResolveDictionary` via `deepMerge`, lines 176-224): the `content`
object is recursed into by `deepMerge` before the resolver's
locale-length rule can fire, and a string-valued locale coming from
`theirs` always overwrites `ours` regardless of length. -/
theorem dictSmartMerge_characterisation :
    (∀ (ps tpairs final : List (String × JVal)),
      (tpairs.map Prod.fst).Nodup →
      mergeContentLoopC (.obj ps) tpairs = .ok (.obj final) →
      (∀ k, k ∉ tpairs.map Prod.fst → lookupObj final k = lookupObj ps k) ∧
      (∀ k t, (k, t) ∈ tpairs →
        lookupObj final k =
          (if (!truthyOpt (lookupObj ps k) ||
              (truthy t && !(jsTrim (jsToString t)).isEmpty)) = true
           then some t else lookupObj ps k))) ∧
    (∀ (op tp : List (String × JVal)) (out : JVal),
      (tp.map Prod.fst).Nodup →
      deepMerge dictResolverA (some (.obj op)) (.obj tp) = .ok out →
      ∃ final, out = .obj final ∧
        (∀ k, k ∉ tp.map Prod.fst → lookupObj final k = lookupObj op k) ∧
        (∀ k s, (k, JVal.str s) ∈ tp → lookupObj final k = some (.str s))) := by
  constructor
  · intro ps tpairs final hnd hok
    rw [mergeContentLoopC_eq] at hok
    have hok' : foldAssignM localeUpdC ps tpairs = .ok final := by
      cases hfa : foldAssignM localeUpdC ps tpairs with
      | error e => rw [hfa] at hok; cases hok
      | ok l =>
        rw [hfa] at hok
        simp only [Except.map, Except.ok.injEq, JVal.obj.injEq] at hok
        rw [hok]
    obtain ⟨hout, hin⟩ := foldAssignM_ok _ tpairs ps final hnd hok'
    refine ⟨hout, ?_⟩
    intro k t hmem
    obtain ⟨r, hupd, hfin⟩ := hin k t hmem
    by_cases hc : (!truthyOpt (lookupObj ps k) ||
        (truthy t && !(jsTrim (jsToString t)).isEmpty)) = true
    · rw [if_pos hc]
      unfold localeUpdC at hupd
      rw [if_pos hc] at hupd
      have hr : r = some t := by injection hupd with h'; exact h'.symm
      subst hr
      exact hfin
    · rw [if_neg hc]
      unfold localeUpdC at hupd
      rw [if_neg hc] at hupd
      have hr : r = none := by injection hupd with h'; exact h'.symm
      subst hr
      exact hfin
  · intro op tp out hnd hok
    obtain ⟨final, hobj, hout, hin⟩ := deepMerge_obj_ok dictResolverA _ tp out hnd hok
    refine ⟨final, hobj, fun k hk => hout k hk, ?_⟩
    intro k s hmem
    have h := hin k (JVal.str s) hmem
    simp only at h
    cases hcur : lookupObj (spreadObj (some (JVal.obj op))) k with
    | some cur =>
      rw [hcur] at h
      obtain ⟨r, hres, hfin⟩ := h
      rw [show dictResolverA k cur (.str s) = .ok (.str s) from
        dictResolverA_nonobj k cur (.str s) rfl] at hres
      have hr : r = .str s := by injection hres with h'; exact h'.symm
      subst hr
      exact hfin
    | none =>
      rw [hcur] at h
      exact h

theorem dictSmartMerge_characterisation_witness :
    lookupObj [("es", JVal.str "Hola"), ("fr", JVal.str "Bonjour")] "fr" =
      some (JVal.str "Bonjour") := by
  have h := ((dictSmartMerge_characterisation.1
    [("es", JVal.str "Hola")] [("fr", JVal.str "Bonjour")]
    [("es", JVal.str "Hola"), ("fr", JVal.str "Bonjour")]
    (by decide) rfl).2 "fr" (JVal.str "Bonjour") (List.mem_singleton_self _))
  rw [h]
  rfl

/-- Claim C2, counterexample to the claim as stated, at explicit inputs.
In variant C's locale loop, `theirs`' non-empty translation `"Hi"`
replaces `ours`' strictly longer `"Hello there"`; in variant A the
`deepMerge` of the two content objects likewise ends with `"Hi"`.  Both
contradict the claimed rule that a shorter non-empty `theirs` translation
never replaces a longer `ours` translation. -/
theorem dictSmartMerge_counterexample :
    mergeContentLoopC (.obj [("en", JVal.str "Hello there")])
        [("en", JVal.str "Hi")] = .ok (.obj [("en", JVal.str "Hi")]) ∧
    deepMerge dictResolverA (some (.obj [("en", JVal.str "Hello there")]))
        (.obj [("en", JVal.str "Hi")]) = .ok (.obj [("en", JVal.str "Hi")]) ∧
    (jsTrim (jsToString (JVal.str "Hi"))).length <
      (jsTrim (jsToString (JVal.str "Hello there"))).length :=
  ⟨rfl, rfl, by decide⟩

/-- Claim C10 (implicit behaviour).  In every dictionary-merge variant,
when an entry key is present on both sides the merged entry's `hash` comes
from `theirs` whenever `theirs` defines one different from `ours`:
variant C's `mergeEntryC` overwrites `ourEntry.hash` with `theirEntry.hash`
when the latter is truthy and strictly different, even though the locale
loop may have kept all of `ours`' translations; variant B's `entryUpdB`
rebuilds the entry as `\x7b ...theirEntry, content: merged \x7d`, so the
`hash` is always `theirs`'; variant A's `deepMerge` with the dictionary
resolver sends the string-valued `hash` of `theirs` through the resolver,
which returns `theirs`. -/
theorem dictHash_overwrite :
    (∀ (oe te : List (String × JVal)) (out th : JVal),
      lookupObj te "hash" = some th → truthy th = true →
      jsStrictNeq (some th) (lookupObj oe "hash") = true →
      mergeEntryC (.obj oe) (.obj te) = .ok out →
      ∃ fe, out = JVal.obj fe ∧ lookupObj fe "hash" = some th) ∧
    (∀ (o : JVal) (key : String) (te : List (String × JVal)) (c : Option JVal) (v : JVal),
      entryUpdB o key (.obj te) c = .ok (some v) →
      ∃ fe, v = JVal.obj fe ∧ lookupObj fe "hash" = lookupObj te "hash") ∧
    (∀ (op tp : List (String × JVal)) (out : JVal) (hs : String),
      (tp.map Prod.fst).Nodup →
      deepMerge dictResolverA (some (.obj op)) (.obj tp) = .ok out →
      ("hash", JVal.str hs) ∈ tp →
      ∃ final, out = JVal.obj final ∧ lookupObj final "hash" = some (.str hs)) := by
  refine ⟨?_, ?_, ?_⟩
  · intro oe te out th hth htr hneq hok
    unfold mergeEntryC at hok
    obtain ⟨tc, htcr, hok⟩ := bind_ok _ _ _ hok
    have htcr' : Except.ok (lookupObj te "content") = Except.ok tc := htcr
    injection htcr' with htc
    subst htc
    obtain ⟨e1, he1, hok⟩ := bind_ok _ _ _ hok
    obtain ⟨th', hthr, hok⟩ := bind_ok _ _ _ hok
    have hthr' : Except.ok (lookupObj te "hash") = Except.ok th' := hthr
    injection hthr' with hth2
    rw [← hth2, hth] at hok
    rw [if_pos (show truthyOpt (some th) = true from htr)] at hok
    obtain ⟨oh, hohr, hok⟩ := bind_ok _ _ _ hok
    by_cases htcc : truthyOpt (lookupObj te "content") = true
    · rw [if_pos htcc] at he1
      obtain ⟨oc, hocr, he1⟩ := bind_ok _ _ _ he1
      obtain ⟨e, her, he1⟩ := bind_ok _ _ _ he1
      have her' : Except.ok (JVal.obj (setKey oe "content" (ourContent0 oc))) =
          Except.ok e := her
      injection her' with he'
      subst he'
      obtain ⟨tps, htps, he1⟩ := bind_ok _ _ _ he1
      obtain ⟨nc, hnc, he1⟩ := bind_ok _ _ _ he1
      have he1' : Except.ok (JVal.obj (setKey
          (setKey oe "content" (ourContent0 oc)) "content" nc)) = Except.ok e1 := he1
      injection he1' with he1e
      subst he1e
      have hohr' : Except.ok (lookupObj
          (setKey (setKey oe "content" (ourContent0 oc)) "content" nc) "hash") =
          Except.ok oh := hohr
      injection hohr' with hoh2
      have hohe : oh = lookupObj oe "hash" := by
        rw [← hoh2, lookupObj_setKey_ne _ "content" "hash" _ (by decide),
          lookupObj_setKey_ne _ "content" "hash" _ (by decide)]
      rw [hohe, if_pos hneq] at hok
      have hout : Except.ok (JVal.obj (setKey (setKey
          (setKey oe "content" (ourContent0 oc)) "content" nc) "hash" th)) =
          Except.ok out := hok
      injection hout with ho
      exact ⟨_, ho.symm, lookupObj_setKey_self _ _ _⟩
    · rw [if_neg htcc] at he1
      have he1' : Except.ok (JVal.obj oe) = Except.ok e1 := he1
      injection he1' with he1e
      subst he1e
      have hohr' : Except.ok (lookupObj oe "hash") = Except.ok oh := hohr
      injection hohr' with hoh2
      rw [← hoh2, if_pos hneq] at hok
      have hout : Except.ok (JVal.obj (setKey oe "hash" th)) = Except.ok out := hok
      injection hout with ho
      exact ⟨_, ho.symm, lookupObj_setKey_self _ _ _⟩
  · intro o key te c v hok
    unfold entryUpdB at hok
    obtain ⟨ovOpt, hovr, hok⟩ := bind_ok _ _ _ hok
    by_cases htro : truthyOpt ovOpt = true
    · rw [if_pos htro] at hok
      obtain ⟨tc, htcr, hok⟩ := bind_ok _ _ _ hok
      by_cases ht1 : truthyOpt tc = true
      · rw [if_pos ht1] at hok
        obtain ⟨oc, hocr, hok⟩ := bind_ok _ _ _ hok
        by_cases ht2 : truthyOpt oc = true
        · rw [if_pos ht2] at hok
          obtain ⟨tps, htps, hok⟩ := bind_ok _ _ _ hok
          obtain ⟨mc, hmc, hok⟩ := bind_ok _ _ _ hok
          have hout : Except.ok (some (JVal.obj
              (setKey te "content" (JVal.obj mc)))) = Except.ok (some v) := hok
          injection hout with ho
          injection ho with ho2
          exact ⟨setKey te "content" (JVal.obj mc), ho2.symm,
            lookupObj_setKey_ne te "content" "hash" _ (by decide)⟩
        · rw [if_neg ht2] at hok
          have : Except.ok (none : Option JVal) = Except.ok (some v) := hok
          injection this with h'
          exact absurd h' (by simp)
      · rw [if_neg ht1] at hok
        have : Except.ok (none : Option JVal) = Except.ok (some v) := hok
        injection this with h'
        exact absurd h' (by simp)
    · rw [if_neg htro] at hok
      have : Except.ok (none : Option JVal) = Except.ok (some v) := hok
      injection this with h'
      exact absurd h' (by simp)
  · intro op tp out hs hnd hok hmem
    obtain ⟨final, hobj, _hout, hin⟩ := deepMerge_obj_ok dictResolverA _ tp out hnd hok
    refine ⟨final, hobj, ?_⟩
    have h := hin "hash" (JVal.str hs) hmem
    simp only at h
    cases hcur : lookupObj (spreadObj (some (JVal.obj op))) "hash" with
    | some cur =>
      rw [hcur] at h
      obtain ⟨r, hres, hfin⟩ := h
      rw [show dictResolverA "hash" cur (.str hs) = .ok (.str hs) from
        dictResolverA_nonobj "hash" cur (.str hs) rfl] at hres
      have hr : r = .str hs := by injection hres with h'; exact h'.symm
      subst hr
      exact hfin
    | none =>
      rw [hcur] at h
      exact h

theorem dictHash_overwrite_witness :
    ∃ fe, JVal.obj [("content", JVal.obj [("en", JVal.str "Hello")]),
        ("hash", JVal.str "h2")] = JVal.obj fe ∧
      lookupObj fe "hash" = some (JVal.str "h2") :=
  dictHash_overwrite.1
    [("content", JVal.obj [("en", JVal.str "Hello")]), ("hash", JVal.str "h1")]
    [("content", JVal.obj [("en", JVal.str "")]), ("hash", JVal.str "h2")]
    (JVal.obj [("content", JVal.obj [("en", JVal.str "Hello")]), ("hash", JVal.str "h2")])
    (JVal.str "h2") rfl rfl rfl rfl

/-- Claim C4 (amended).  Variant A (`smartResolveMeta` /
`smartResolveDictionary`, lines 130-142 and 176-188): when exactly one
side's fragment parses to a truthy value the resolution is that side's
fragment verbatim, when both fail it is the literal `ours` fragment, and a
merge error also falls back to `ours`; the per-conflict resolver is a
total function.  Variant B (`smartResolveMeta`, lines 477-485): when
`ours` parses and `theirs` does not the resolution is `ours`, but whenever
`ours` fails to parse — including when BOTH sides fail — the resolution is
the literal `theirs` fragment, not `ours`. -/
theorem smartFallback_characterisation :
    (∀ (p : String → Option JVal) (fmt : JVal → String) (c : ConflictSection),
      (truthyOpt (parseJSONFragment p c.ours) = false →
        truthyOpt (parseJSONFragment p c.theirs) = false →
        smartResolveMetaA p fmt c = c.ours) ∧
      (truthyOpt (parseJSONFragment p c.ours) = false →
        truthyOpt (parseJSONFragment p c.theirs) = true →
        smartResolveMetaA p fmt c = c.theirs) ∧
      (truthyOpt (parseJSONFragment p c.ours) = true →
        truthyOpt (parseJSONFragment p c.theirs) = false →
        smartResolveMetaA p fmt c = c.ours) ∧
      (∀ e, truthyOpt (parseJSONFragment p c.ours) = true →
        truthyOpt (parseJSONFragment p c.theirs) = true →
        deepMerge metaResolverA (parseJSONFragment p c.ours)
          ((parseJSONFragment p c.theirs).getD .null) = .error e →
        smartResolveMetaA p fmt c = c.ours)) ∧
    (∀ (p : String → Option JVal) (fmt : JVal → String) (c : ConflictSection),
      (truthyOpt (parseJSFragment p c.ours) = false →
        truthyOpt (parseJSFragment p c.theirs) = false →
        smartResolveDictionaryA p fmt c = c.ours) ∧
      (truthyOpt (parseJSFragment p c.ours) = false →
        truthyOpt (parseJSFragment p c.theirs) = true →
        smartResolveDictionaryA p fmt c = c.theirs) ∧
      (truthyOpt (parseJSFragment p c.ours) = true →
        truthyOpt (parseJSFragment p c.theirs) = false →
        smartResolveDictionaryA p fmt c = c.ours) ∧
      (∀ e, truthyOpt (parseJSFragment p c.ours) = true →
        truthyOpt (parseJSFragment p c.theirs) = true →
        deepMerge dictResolverA (parseJSFragment p c.ours)
          ((parseJSFragment p c.theirs).getD .null) = .error e →
        smartResolveDictionaryA p fmt c = c.ours)) ∧
    (∀ (p : String → Option JVal) (fmtB : List (String × JVal) → String)
        (c : ConflictSection),
      (truthyOpt (parseJSONB p ("\x7b" ++ c.ours ++ "\x7d")) = true →
        truthyOpt (parseJSONB p ("\x7b" ++ c.theirs ++ "\x7d")) = false →
        smartResolveMetaB p fmtB c = c.ours) ∧
      (truthyOpt (parseJSONB p ("\x7b" ++ c.ours ++ "\x7d")) = false →
        smartResolveMetaB p fmtB c = c.theirs) ∧
      (∀ e, truthyOpt (parseJSONB p ("\x7b" ++ c.ours ++ "\x7d")) = true →
        truthyOpt (parseJSONB p ("\x7b" ++ c.theirs ++ "\x7d")) = true →
        mergeScopesBVal ((parseJSONB p ("\x7b" ++ c.ours ++ "\x7d")).getD .null)
          ((parseJSONB p ("\x7b" ++ c.theirs ++ "\x7d")).getD .null) = .error e →
        smartResolveMetaB p fmtB c = c.ours)) := by
  refine ⟨fun p fmt c => ⟨?_, ?_, ?_, ?_⟩, fun p fmt c => ⟨?_, ?_, ?_, ?_⟩,
    fun p fmtB c => ⟨?_, ?_, ?_⟩⟩
  · intro h1 h2
    simp [smartResolveMetaA, h1, h2]
  · intro h1 h2
    simp [smartResolveMetaA, h1, h2]
  · intro h1 h2
    simp [smartResolveMetaA, h1, h2]
  · intro e h1 h2 herr
    simp [smartResolveMetaA, h1, h2, herr]
  · intro h1 h2
    simp [smartResolveDictionaryA, h1, h2]
  · intro h1 h2
    simp [smartResolveDictionaryA, h1, h2]
  · intro h1 h2
    simp [smartResolveDictionaryA, h1, h2]
  · intro e h1 h2 herr
    simp [smartResolveDictionaryA, h1, h2, herr]
  · intro h1 h2
    simp [smartResolveMetaB, h1, h2]
  · intro h1
    simp [smartResolveMetaB, h1]
  · intro e h1 h2 herr
    simp [smartResolveMetaB, h1, h2, herr]

theorem smartFallback_characterisation_witness :
    smartResolveMetaA (fun _ => none) (fun _ => "")
      ⟨"x", "y", none, 0, 2⟩ = "x" ∧
    smartResolveMetaB (fun s => if s = "\x7bA\x7d" then some (JVal.bool true) else none)
      (fun _ => "") ⟨"A", "B", none, 0, 2⟩ = "A" :=
  ⟨(smartFallback_characterisation.1 (fun _ => none) (fun _ => "")
      ⟨"x", "y", none, 0, 2⟩).1 (by decide) (by decide),
   (smartFallback_characterisation.2.2
      (fun s => if s = "\x7bA\x7d" then some (JVal.bool true) else none)
      (fun _ => "") ⟨"A", "B", none, 0, 2⟩).1 (by decide) (by decide)⟩

/-- Claim C4, counterexample to the claim as stated, at explicit inputs.
In variant B's `smartResolveMeta`, when BOTH sides fail to parse
(`parseJSON` returns `null` for each), the resolution is the literal
`theirs` fragment `"#"`, not the claimed `ours` fragment `"@"`. -/
theorem smartFallback_counterexample :
    smartResolveMetaB (fun _ => none) (fun _ => "") ⟨"@", "#", none, 0, 2⟩ = "#" ∧
    ("#" : String) ≠ "@" :=
  ⟨rfl, by decide⟩

end LingoMerge
